import Mathlib

/-!
# Verification of the rxxxt reactive-engine specification against its source

This development shallowly embeds the parts of the `rxxxt` code base that the
frozen claims C1..C10 are about:

* `rxxxt/state.py` — `JWTStateResolver.create_token` / `JWTStateResolver.resolve`
  together with the external codecs they call (`base64.urlsafe_b64encode` /
  `urlsafe_b64decode` on top of `binascii.a2b_base64` in non-strict mode,
  `json.dumps` with its default `ensure_ascii=True` escaping, `json.loads`,
  UTF-8 encoding/decoding).  HMAC digests are kept abstract: every theorem is
  parametric in the digest function, since no claim depends on its value.
* `rxxxt/execution.py` — the `State` class (subscriber sets, pending updates,
  output events) and `Context.navigate`, `get_context_stack_sid`.
* `rxxxt/session.py` — `Session.update`'s root-finding walk.
* `rxxxt/newstate.py` — `KeyState.set`, `State.cleanup`, `State._get_active_keys`.
* `rxxxt/component.py` — `Component.add_job`/`add_worker`/`lc_destroy`/
  `lc_handle_event` and `ComponentNode.destroy`.

Machine-level conventions: Python `bytes` are lists of naturals below 256,
Python `str` values are lists of Unicode code points (naturals below 0x110000;
CPython strings may additionally carry lone surrogates, which the embedding
keeps representable).  All definitions are executable and structurally
recursive so that concrete runs of the embedded code reduce in the kernel.
-/

set_option maxRecDepth 2048

namespace Rxxxt

/-- A Python `bytes` value: a list of naturals, each below 256. -/
abbrev Bytes := List Nat

/-- A Python `str` value: a list of Unicode code points (each below 0x110000). -/
abbrev PyStr := List Nat

/-- Convert a Lean string literal (ASCII in this development) to the list of
its code points, to write embedded Python string constants compactly. -/
def ofStr (s : String) : PyStr := s.data.map Char.toNat

/-- Exceptions of the Python runtime that the embedded code can surface,
other than the repository's own `StateResolverError`. -/
inductive PyExc where
  /-- `binascii.Error`, raised by `base64.urlsafe_b64decode`. -/
  | binasciiError
  /-- `UnicodeDecodeError`, raised when decoding invalid UTF-8 bytes. -/
  | unicodeDecodeError
  /-- `UnicodeEncodeError`, raised by `str.encode` on surrogate code points. -/
  | unicodeEncodeError
  /-- `json.JSONDecodeError`, raised by `json.loads` on unparsable input. -/
  | jsonDecodeError
deriving DecidableEq, Repr

/-! ## Base64url (`base64.urlsafe_b64encode` / `urlsafe_b64decode`)

`JWTStateResolver.b64url_encode` is `base64.urlsafe_b64encode(value).rstrip(b"=")`;
`JWTStateResolver.b64url_decode` is
`base64.urlsafe_b64decode(value + b"=" * (4 - len(value) % 4))`.
The decoder below models CPython's `binascii.a2b_base64` in its default
non-strict mode, whose observable behaviour was characterised on the input
shapes that occur in this development: invalid characters are skipped, a data
character count congruent to 1 mod 4 raises `binascii.Error`, padding after a
partial quad of two sextets needs two `=` and after three sextets one `=`
(decoding then stops), and a partial quad left at end of input raises
`binascii.Error` ("Incorrect padding"). -/

/-- The URL-safe base64 alphabet: maps a sextet value below 64 to its
character code (`A-Z`, `a-z`, `0-9`, `-`, `_`). -/
def b64char (v : Nat) : Nat :=
  if v < 26 then 65 + v
  else if v < 52 then 97 + (v - 26)
  else if v < 62 then 48 + (v - 52)
  else if v = 62 then 45
  else 95

/-- Inverse of the URL-safe alphabet: the sextet value of a character code,
or `none` for characters outside the alphabet. -/
def b64charVal (c : Nat) : Option Nat :=
  if 65 ≤ c ∧ c ≤ 90 then some (c - 65)
  else if 97 ≤ c ∧ c ≤ 122 then some (c - 97 + 26)
  else if 48 ≤ c ∧ c ≤ 57 then some (c - 48 + 52)
  else if c = 45 then some 62
  else if c = 95 then some 63
  else none

/-- `base64.urlsafe_b64encode`: bytes to base64 characters, group by group,
with `=` (code 61) padding for a trailing group of one or two bytes. -/
def b64encodeGroups : Bytes → List Nat
  | [] => []
  | [a] => [b64char (a / 4), b64char (a % 4 * 16), 61, 61]
  | [a, b] => [b64char (a / 4), b64char (a % 4 * 16 + b / 16), b64char (b % 16 * 4), 61]
  | a :: b :: c :: rest =>
      b64char (a / 4) :: b64char (a % 4 * 16 + b / 16) ::
      b64char (b % 16 * 4 + c / 64) :: b64char (c % 64) :: b64encodeGroups rest

/-- `bytes.rstrip(b"=")`: drop trailing `=` characters. -/
def rstripEq (l : List Nat) : List Nat :=
  (l.reverse.dropWhile (fun c => c == 61)).reverse

/-- `JWTStateResolver.b64url_encode(value)`:
`base64.urlsafe_b64encode(value).rstrip(b"=")`. -/
def b64url_encode (bs : Bytes) : List Nat := rstripEq (b64encodeGroups bs)

/-- Emit the bytes of a completed quad of four sextets. -/
def b64quadBytes (a b c d : Nat) : Bytes :=
  [a * 4 + b / 16, b % 16 * 16 + c / 4, c % 4 * 64 + d]

/-- Emit the bytes encoded by a partial quad when padding ends the input:
two sextets carry one byte, three sextets carry two. -/
def b64flush : List Nat → Bytes
  | [a, b] => [a * 4 + b / 16]
  | [a, b, c] => [a * 4 + b / 16, b % 16 * 16 + c / 4]
  | _ => []

/-- The `binascii.a2b_base64` scan (non-strict): `quad` is the partial group of
decoded sextets (length at most 3), `pads` counts padding characters seen
against the current partial group, `out` accumulates output bytes. -/
def a2bGo : List Nat → List Nat → Nat → Bytes → Except PyExc Bytes
  | [], quad, _, out =>
      if quad.length = 0 then .ok out
      else .error .binasciiError
  | c :: rest, quad, pads, out =>
      if c = 61 then
        if 2 ≤ quad.length ∧ 4 ≤ quad.length + pads + 1 then .ok (out ++ b64flush quad)
        else a2bGo rest quad (if 2 ≤ quad.length then pads + 1 else pads) out
      else
        match b64charVal c with
        | none => a2bGo rest quad pads out
        | some v =>
            match quad with
            | [a, b, cc] => a2bGo rest [] 0 (out ++ b64quadBytes a b cc v)
            | _ => a2bGo rest (quad ++ [v]) pads out

/-- `JWTStateResolver.b64url_decode(value)`:
`base64.urlsafe_b64decode(value + b"=" * (4 - len(value) % 4))`. -/
def b64url_decode (value : List Nat) : Except PyExc Bytes :=
  a2bGo (value ++ List.replicate (4 - value.length % 4) 61) [] 0 []

/-! ### Base64 codec facts -/

theorem b64charVal_b64char : ∀ v < 64, b64charVal (b64char v) = some v := by decide

theorem b64char_ne_eq : ∀ v < 64, b64char v ≠ 61 := by decide

theorem b64char_ne_dot : ∀ v < 64, b64char v ≠ 46 := by decide

theorem b64char_lt_128 : ∀ v < 64, b64char v < 128 := by decide

/-- Scan step: an alphabet character lands in an empty quad. -/
theorem a2bGo_data0 (c v : Nat) (hv : b64charVal c = some v) (hne : c ≠ 61)
    (rest : List Nat) (pads : Nat) (out : Bytes) :
    a2bGo (c :: rest) [] pads out = a2bGo rest [v] pads out := by
  simp [a2bGo, hne, hv]

/-- Scan step: an alphabet character extends a one-sextet quad. -/
theorem a2bGo_data1 (c v q1 : Nat) (hv : b64charVal c = some v) (hne : c ≠ 61)
    (rest : List Nat) (pads : Nat) (out : Bytes) :
    a2bGo (c :: rest) [q1] pads out = a2bGo rest [q1, v] pads out := by
  simp [a2bGo, hne, hv]

/-- Scan step: an alphabet character extends a two-sextet quad. -/
theorem a2bGo_data2 (c v q1 q2 : Nat) (hv : b64charVal c = some v) (hne : c ≠ 61)
    (rest : List Nat) (pads : Nat) (out : Bytes) :
    a2bGo (c :: rest) [q1, q2] pads out = a2bGo rest [q1, q2, v] pads out := by
  simp [a2bGo, hne, hv]

/-- Scan step: an alphabet character completes a quad, emitting three bytes. -/
theorem a2bGo_data3 (c v q1 q2 q3 : Nat) (hv : b64charVal c = some v) (hne : c ≠ 61)
    (rest : List Nat) (pads : Nat) (out : Bytes) :
    a2bGo (c :: rest) [q1, q2, q3] pads out
      = a2bGo rest [] 0 (out ++ b64quadBytes q1 q2 q3 v) := by
  simp [a2bGo, hne, hv]

/-- Scan step for a padding character. -/
theorem a2bGo_pad (rest quad : List Nat) (pads : Nat) (out : Bytes) :
    a2bGo (61 :: rest) quad pads out =
      if 2 ≤ quad.length ∧ 4 ≤ quad.length + pads + 1 then .ok (out ++ b64flush quad)
      else a2bGo rest quad (if 2 ≤ quad.length then pads + 1 else pads) out := by
  simp [a2bGo]

/-- Every character the encoder emits for a byte below 256 is in the alphabet
(its sextet is below 64). -/
theorem b64encodeGroups_chars : ∀ (bs : Bytes), (∀ x ∈ bs, x < 256) →
    ∀ c ∈ b64encodeGroups bs, c = 61 ∨ ∃ v, v < 64 ∧ c = b64char v
  | [], _, c, hc => by simp [b64encodeGroups] at hc
  | [a], h, c, hc => by
      have ha : a < 256 := h a (by simp)
      simp only [b64encodeGroups, List.mem_cons, List.not_mem_nil, or_false] at hc
      rcases hc with rfl | rfl | rfl | rfl
      · exact .inr ⟨a / 4, by omega, rfl⟩
      · exact .inr ⟨a % 4 * 16, by omega, rfl⟩
      · exact .inl rfl
      · exact .inl rfl
  | [a, b], h, c, hc => by
      have ha : a < 256 := h a (by simp)
      have hb : b < 256 := h b (by simp)
      simp only [b64encodeGroups, List.mem_cons, List.not_mem_nil, or_false] at hc
      rcases hc with rfl | rfl | rfl | rfl
      · exact .inr ⟨a / 4, by omega, rfl⟩
      · exact .inr ⟨a % 4 * 16 + b / 16, by omega, rfl⟩
      · exact .inr ⟨b % 16 * 4, by omega, rfl⟩
      · exact .inl rfl
  | a :: b :: cc :: rest, h, c, hc => by
      have ha : a < 256 := h a (by simp)
      have hb : b < 256 := h b (by simp)
      have hcc : cc < 256 := h cc (by simp)
      simp only [b64encodeGroups, List.mem_cons] at hc
      rcases hc with rfl | rfl | rfl | rfl | hc
      · exact .inr ⟨a / 4, by omega, rfl⟩
      · exact .inr ⟨a % 4 * 16 + b / 16, by omega, rfl⟩
      · exact .inr ⟨b % 16 * 4 + cc / 64, by omega, rfl⟩
      · exact .inr ⟨cc % 64, by omega, rfl⟩
      · exact b64encodeGroups_chars rest (fun x hx => h x (by simp [hx])) c hc

/-- Decoding the raw encoder output of a byte list (with four explicit padding
characters appended when no padding group was produced, mirroring what
`b64url_decode` re-appends after the strip) recovers the bytes. -/
theorem a2bGo_groups : ∀ (bs : Bytes), (∀ x ∈ bs, x < 256) → ∀ out : Bytes,
    a2bGo (b64encodeGroups bs ++ (if bs.length % 3 = 0 then [61, 61, 61, 61] else []))
        [] 0 out = .ok (out ++ bs)
  | [], _, out => by simp [b64encodeGroups, a2bGo]
  | [a], h, out => by
      have ha : a < 256 := h a (by simp)
      have h1 : b64charVal (b64char (a / 4)) = some (a / 4) :=
        b64charVal_b64char _ (by omega)
      have h2 : b64charVal (b64char (a % 4 * 16)) = some (a % 4 * 16) :=
        b64charVal_b64char _ (by omega)
      have e1 := b64char_ne_eq (a / 4) (by omega)
      have e2 := b64char_ne_eq (a % 4 * 16) (by omega)
      simp only [b64encodeGroups, List.length_cons, List.length_nil, List.cons_append,
        List.nil_append]
      rw [if_neg (by omega)]
      rw [a2bGo_data0 _ _ h1 e1, a2bGo_data1 _ _ _ h2 e2]
      rw [a2bGo_pad, if_neg (by simp)]
      rw [a2bGo_pad, if_pos (by simp)]
      have hx : b64flush [a / 4, a % 4 * 16] = [a] := by
        simp only [b64flush, List.cons.injEq, and_true]
        omega
      rw [hx]
  | [a, b], h, out => by
      have ha : a < 256 := h a (by simp)
      have hb : b < 256 := h b (by simp)
      have h1 : b64charVal (b64char (a / 4)) = some (a / 4) :=
        b64charVal_b64char _ (by omega)
      have h2 : b64charVal (b64char (a % 4 * 16 + b / 16)) = some (a % 4 * 16 + b / 16) :=
        b64charVal_b64char _ (by omega)
      have h3 : b64charVal (b64char (b % 16 * 4)) = some (b % 16 * 4) :=
        b64charVal_b64char _ (by omega)
      have e1 := b64char_ne_eq (a / 4) (by omega)
      have e2 := b64char_ne_eq (a % 4 * 16 + b / 16) (by omega)
      have e3 := b64char_ne_eq (b % 16 * 4) (by omega)
      simp only [b64encodeGroups, List.length_cons, List.length_nil, List.cons_append,
        List.nil_append]
      rw [if_neg (by omega)]
      rw [a2bGo_data0 _ _ h1 e1, a2bGo_data1 _ _ _ h2 e2, a2bGo_data2 _ _ _ _ h3 e3]
      rw [a2bGo_pad, if_pos (by simp)]
      have hx : b64flush [a / 4, a % 4 * 16 + b / 16, b % 16 * 4] = [a, b] := by
        simp only [b64flush, List.cons.injEq, and_true]
        exact ⟨by omega, by omega⟩
      rw [hx]
  | a :: b :: c :: rest, h, out => by
      have ha : a < 256 := h a (by simp)
      have hb : b < 256 := h b (by simp)
      have hc : c < 256 := h c (by simp)
      have h1 : b64charVal (b64char (a / 4)) = some (a / 4) :=
        b64charVal_b64char _ (by omega)
      have h2 : b64charVal (b64char (a % 4 * 16 + b / 16)) = some (a % 4 * 16 + b / 16) :=
        b64charVal_b64char _ (by omega)
      have h3 : b64charVal (b64char (b % 16 * 4 + c / 64)) = some (b % 16 * 4 + c / 64) :=
        b64charVal_b64char _ (by omega)
      have h4 : b64charVal (b64char (c % 64)) = some (c % 64) :=
        b64charVal_b64char _ (by omega)
      have e1 := b64char_ne_eq (a / 4) (by omega)
      have e2 := b64char_ne_eq (a % 4 * 16 + b / 16) (by omega)
      have e3 := b64char_ne_eq (b % 16 * 4 + c / 64) (by omega)
      have e4 := b64char_ne_eq (c % 64) (by omega)
      show a2bGo (b64encodeGroups (a :: b :: c :: rest) ++ _) [] 0 out = _
      simp only [b64encodeGroups, List.length_cons, List.cons_append]
      have hif : (if (rest.length + 1 + 1 + 1) % 3 = 0 then ([61, 61, 61, 61] : List Nat)
            else []) = (if rest.length % 3 = 0 then [61, 61, 61, 61] else []) := by
        by_cases hm : rest.length % 3 = 0
        · rw [if_pos hm, if_pos (by omega)]
        · rw [if_neg hm, if_neg (by omega)]
      rw [hif]
      rw [a2bGo_data0 _ _ h1 e1, a2bGo_data1 _ _ _ h2 e2, a2bGo_data2 _ _ _ _ h3 e3,
        a2bGo_data3 _ _ _ _ _ h4 e4]
      have hq : b64quadBytes (a / 4) (a % 4 * 16 + b / 16) (b % 16 * 4 + c / 64) (c % 64)
          = [a, b, c] := by
        simp only [b64quadBytes, List.cons.injEq, and_true]
        exact ⟨by omega, by omega, by omega⟩
      rw [hq, a2bGo_groups rest (fun x hx => h x (by simp [hx])) (out ++ [a, b, c]),
        List.append_assoc]
      rfl

/-- Appending to a list whose characters are never `=` distributes over the
trailing strip. -/
theorem rstripEq_append (c4 l : List Nat) (h : ∀ c ∈ c4, c ≠ 61) :
    rstripEq (c4 ++ l) = c4 ++ rstripEq l := by
  induction l using List.reverseRecOn with
  | nil =>
      rw [List.append_nil, show rstripEq [] = [] from rfl, List.append_nil]
      unfold rstripEq
      cases hrev : c4.reverse with
      | nil =>
          simpa using (List.reverse_eq_nil_iff.mp hrev).symm
      | cons y ys =>
          have hy : y ≠ 61 := h y (List.mem_reverse.mp (hrev ▸ List.mem_cons_self y ys))
          rw [List.dropWhile_cons_of_neg (by simpa using hy), ← hrev,
            List.reverse_reverse]
  | append_singleton xs x ih =>
      by_cases hx : x = 61
      · subst hx
        have h1 : rstripEq (c4 ++ (xs ++ [61])) = rstripEq (c4 ++ xs) := by
          simp only [rstripEq, ← List.append_assoc, List.reverse_append,
            List.reverse_cons, List.reverse_nil, List.nil_append, List.cons_append]
          rfl
        have h2 : rstripEq (xs ++ [61]) = rstripEq xs := by
          simp only [rstripEq, List.reverse_append, List.reverse_cons, List.reverse_nil,
            List.nil_append, List.cons_append]
          rfl
        rw [h1, h2, ih]
      · have h1 : rstripEq (c4 ++ (xs ++ [x])) = c4 ++ (xs ++ [x]) := by
          simp only [rstripEq, ← List.append_assoc, List.reverse_append,
            List.reverse_cons, List.reverse_nil, List.nil_append, List.cons_append]
          rw [List.dropWhile_cons_of_neg (by simpa using hx)]
          simp
        have h2 : rstripEq (xs ++ [x]) = xs ++ [x] := by
          simp only [rstripEq, List.reverse_append, List.reverse_cons, List.reverse_nil,
            List.nil_append, List.cons_append]
          rw [List.dropWhile_cons_of_neg (by simpa using hx)]
          simp
        rw [h1, h2]

/-- A list without `=` characters strips to itself. -/
theorem rstripEq_no_eq (l : List Nat) (h : ∀ c ∈ l, c ≠ 61) : rstripEq l = l := by
  have := rstripEq_append l [] h
  simpa [rstripEq] using this

/-- What `b64url_decode` receives on `b64url_encode` output: the raw encoder
groups, plus four bare padding characters when the byte count is a multiple of
three (the strip removed nothing, so the length was a multiple of four and the
decode wrapper appends four `=`). -/
theorem b64url_decode_input : ∀ (bs : Bytes), (∀ x ∈ bs, x < 256) →
    b64url_encode bs ++ List.replicate (4 - (b64url_encode bs).length % 4) 61
      = b64encodeGroups bs ++ (if bs.length % 3 = 0 then [61, 61, 61, 61] else [])
  | [], _ => by simp [b64url_encode, b64encodeGroups, rstripEq, List.replicate]
  | [a], h => by
      have ha : a < 256 := h a (by simp)
      have e1 := b64char_ne_eq (a / 4) (by omega)
      have e2 := b64char_ne_eq (a % 4 * 16) (by omega)
      have henc : b64url_encode [a] = [b64char (a / 4), b64char (a % 4 * 16)] := by
        have : b64encodeGroups [a] = [b64char (a / 4), b64char (a % 4 * 16)] ++ [61, 61] := by
          simp [b64encodeGroups]
        rw [b64url_encode, this,
          rstripEq_append _ _ (by
            intro c hc
            simp only [List.mem_cons, List.not_mem_nil, or_false] at hc
            rcases hc with rfl | rfl
            · exact e1
            · exact e2)]
        simp [rstripEq]
      rw [henc]
      simp [b64encodeGroups, List.replicate]
  | [a, b], h => by
      have ha : a < 256 := h a (by simp)
      have hb : b < 256 := h b (by simp)
      have e1 := b64char_ne_eq (a / 4) (by omega)
      have e2 := b64char_ne_eq (a % 4 * 16 + b / 16) (by omega)
      have e3 := b64char_ne_eq (b % 16 * 4) (by omega)
      have henc : b64url_encode [a, b]
          = [b64char (a / 4), b64char (a % 4 * 16 + b / 16), b64char (b % 16 * 4)] := by
        have : b64encodeGroups [a, b]
            = [b64char (a / 4), b64char (a % 4 * 16 + b / 16), b64char (b % 16 * 4)]
              ++ [61] := by
          simp [b64encodeGroups]
        rw [b64url_encode, this,
          rstripEq_append _ _ (by
            intro c hc
            simp only [List.mem_cons, List.not_mem_nil, or_false] at hc
            rcases hc with rfl | rfl | rfl
            · exact e1
            · exact e2
            · exact e3)]
        simp [rstripEq]
      rw [henc]
      simp [b64encodeGroups, List.replicate]
  | a :: b :: c :: rest, h => by
      have ha : a < 256 := h a (by simp)
      have hb : b < 256 := h b (by simp)
      have hc : c < 256 := h c (by simp)
      have e1 := b64char_ne_eq (a / 4) (by omega)
      have e2 := b64char_ne_eq (a % 4 * 16 + b / 16) (by omega)
      have e3 := b64char_ne_eq (b % 16 * 4 + c / 64) (by omega)
      have e4 := b64char_ne_eq (c % 64) (by omega)
      have hgroups : b64encodeGroups (a :: b :: c :: rest)
          = [b64char (a / 4), b64char (a % 4 * 16 + b / 16),
             b64char (b % 16 * 4 + c / 64), b64char (c % 64)] ++ b64encodeGroups rest := by
        simp [b64encodeGroups]
      have hall : ∀ x ∈ [b64char (a / 4), b64char (a % 4 * 16 + b / 16),
          b64char (b % 16 * 4 + c / 64), b64char (c % 64)], x ≠ 61 := by
        intro x hx
        simp only [List.mem_cons, List.not_mem_nil, or_false] at hx
        rcases hx with rfl | rfl | rfl | rfl
        · exact e1
        · exact e2
        · exact e3
        · exact e4
      have henc : b64url_encode (a :: b :: c :: rest)
          = [b64char (a / 4), b64char (a % 4 * 16 + b / 16),
             b64char (b % 16 * 4 + c / 64), b64char (c % 64)] ++ b64url_encode rest := by
        rw [b64url_encode, hgroups, rstripEq_append _ _ hall]
        rfl
      have hlen : (b64url_encode (a :: b :: c :: rest)).length % 4
          = (b64url_encode rest).length % 4 := by
        rw [henc]
        simp only [List.length_append, List.length_cons, List.length_nil]
        omega
      rw [hlen, henc, List.append_assoc]
      have hif : (if (a :: b :: c :: rest).length % 3 = 0 then ([61, 61, 61, 61] : List Nat)
            else []) = (if rest.length % 3 = 0 then [61, 61, 61, 61] else []) := by
        by_cases hm : rest.length % 3 = 0
        · rw [if_pos hm, if_pos (by simp only [List.length_cons]; omega)]
        · rw [if_neg hm, if_neg (by simp only [List.length_cons]; omega)]
      rw [hif, hgroups, List.append_assoc]
      congr 1
      exact b64url_decode_input rest (fun x hx => h x (by simp [hx]))

/-- Base64url codec round-trip: decoding an encoded byte list (as
`JWTStateResolver.resolve` does after re-padding) recovers the bytes. -/
theorem b64url_decode_encode (bs : Bytes) (h : ∀ x ∈ bs, x < 256) :
    b64url_decode (b64url_encode bs) = .ok bs := by
  rw [b64url_decode, b64url_decode_input bs h]
  simpa using a2bGo_groups bs h []

/-! ## JSON (`json.dumps` with default options / `json.loads`)

`create_token` serialises with `json.dumps(...)` under the defaults
(`ensure_ascii=True`, separators `", "` and `": "`, insertion-ordered dicts);
`resolve` parses with `json.loads`.  The serialiser below is written out for
the two dictionary shapes `create_token` produces (the header and the
`exp`/`data` payload); the parser is a faithful fuel-based embedding of the
`json.loads` grammar for null, booleans, integers, strings (with strict
control-character rejection and `\uXXXX` surrogate-pair combination as in
`json/decoder.py`), arrays and objects.  Floating-point literals are not
modelled: the parser rejects them, while `json.loads` would accept them and
`resolve`'s `isinstance` checks would then reject the payload — a difference
visible only on tokens whose payload contains a float, which none of the
theorems below exercises. -/

/-- The character code of a lowercase hex digit (`%04x` formatting). -/
def hexDigit (n : Nat) : Nat := if n < 10 then 48 + n else 87 + n

/-- Four-digit lowercase hex rendering used by `\uXXXX` escapes. -/
def hex4 (n : Nat) : List Nat :=
  [hexDigit (n / 4096 % 16), hexDigit (n / 256 % 16), hexDigit (n / 16 % 16), hexDigit (n % 16)]

/-- `py_encode_basestring_ascii` on one code point (the default
`ensure_ascii=True` escaping of `json.dumps`): two-character escapes for the
JSON short set, `\uXXXX` for the remaining control characters and all
non-ASCII code points, with a surrogate pair above `0xFFFF`. -/
def escChar (c : Nat) : List Nat :=
  if c = 34 then [92, 34]
  else if c = 92 then [92, 92]
  else if c = 8 then [92, 98]
  else if c = 9 then [92, 116]
  else if c = 10 then [92, 110]
  else if c = 12 then [92, 102]
  else if c = 13 then [92, 114]
  else if c < 32 then 92 :: 117 :: hex4 c
  else if c < 127 then [c]
  else if c < 65536 then 92 :: 117 :: hex4 c
  else (92 :: 117 :: hex4 (55296 + (c - 65536) / 1024))
    ++ (92 :: 117 :: hex4 (56320 + (c - 65536) % 1024))

/-- A JSON string literal: quote, escaped body, quote. -/
def dumpJStr (s : PyStr) : List Nat := 34 :: s.flatMap escChar ++ [34]

/-- Decimal digits of a natural number, most significant first (fuel-based so
that it reduces in the kernel; `natDec` supplies ample fuel). -/
def natDecAux : Nat → Nat → List Nat
  | 0, _ => []
  | fuel + 1, n => if n < 10 then [48 + n] else natDecAux fuel (n / 10) ++ [48 + n % 10]

/-- Decimal rendering of a natural number. -/
def natDec (n : Nat) : List Nat := natDecAux (n + 1) n

/-- `repr` of a Python `int`, as `json.dumps` renders integers. -/
def intDec : Int → List Nat
  | .ofNat n => natDec n
  | .negSucc m => 45 :: natDec (m + 1)

/-- A parsed JSON value.  Integers only: see the module comment on floats. -/
inductive JValue where
  | null
  | bool (b : Bool)
  | num (n : Int)
  | str (s : PyStr)
  | arr (elems : List JValue)
  | obj (members : List (PyStr × JValue))

/-- JSON whitespace skipping (space, tab, newline, carriage return). -/
def skipWS : List Nat → List Nat
  | c :: rest => if c = 32 ∨ c = 9 ∨ c = 10 ∨ c = 13 then skipWS rest else c :: rest
  | [] => []

/-- The value of a hex digit character, upper or lower case. -/
def hexVal (c : Nat) : Option Nat :=
  if 48 ≤ c ∧ c ≤ 57 then some (c - 48)
  else if 97 ≤ c ∧ c ≤ 102 then some (c - 87)
  else if 65 ≤ c ∧ c ≤ 70 then some (c - 55)
  else none

/-- The value of four hex digit characters. -/
def hex4Val (a b c d : Nat) : Option Nat :=
  match hexVal a, hexVal b, hexVal c, hexVal d with
  | some va, some vb, some vc, some vd => some (((va * 16 + vb) * 16 + vc) * 16 + vd)
  | _, _, _, _ => none

/-- The two-character JSON escapes accepted by `json/decoder.py`. -/
def escCode (e : Nat) : Option Nat :=
  if e = 34 then some 34
  else if e = 92 then some 92
  else if e = 47 then some 47
  else if e = 98 then some 8
  else if e = 102 then some 12
  else if e = 110 then some 10
  else if e = 114 then some 13
  else if e = 116 then some 9
  else none

/-- A lexical unit of a JSON string body: a character produced literally or by
a two-character escape, or the value of one `\uXXXX` escape (kept apart
because only `\uXXXX` escapes take part in surrogate pairing). -/
inductive STok where
  | lit (c : Nat)
  | uesc (u : Nat)

/-- Scanner state for the string tokenizer: plain scanning, the character
after a backslash, or inside the four hex digits of a `\uXXXX` escape
(accumulated value and number of digits read). -/
inductive TState where
  | norm
  | esc
  | hexU (n : Nat) (k : Nat)

/-- First pass of `py_scanstring` (default strict mode), one character per
step, up to the closing quote: literal characters (control characters
rejected), two-character escapes, and `\uXXXX` escapes with their hex value
(an invalid or truncated escape is an error, as in `_decode_uXXXX`). -/
def strTokGo : TState → List Nat → Option (List STok × List Nat)
  | _, [] => none
  | .norm, c :: rest =>
      if c = 34 then some ([], rest)
      else if c = 92 then strTokGo .esc rest
      else if c < 32 then none
      else (strTokGo .norm rest).map (fun p => (STok.lit c :: p.1, p.2))
  | .esc, c :: rest =>
      if c = 117 then strTokGo (.hexU 0 0) rest
      else
        match escCode c with
        | none => none
        | some ch => (strTokGo .norm rest).map (fun p => (STok.lit ch :: p.1, p.2))
  | .hexU n k, c :: rest =>
      match hexVal c with
      | none => none
      | some v =>
          if k = 3 then (strTokGo .norm rest).map (fun p => (STok.uesc (n * 16 + v) :: p.1, p.2))
          else strTokGo (.hexU (n * 16 + v) (k + 1)) rest

/-- The string tokenizer, started in plain scanning state. -/
def strTokens (s : List Nat) : Option (List STok × List Nat) := strTokGo .norm s

/-- Second pass of `py_scanstring`: a `\uXXXX` high surrogate immediately
followed by a `\uXXXX` low surrogate combines into one code point; every
other token contributes its own code point (lone surrogates survive). -/
def surrCombine : List STok → PyStr
  | [] => []
  | .uesc u :: .uesc u2 :: rest =>
      if (55296 ≤ u ∧ u ≤ 56319) ∧ (56320 ≤ u2 ∧ u2 ≤ 57343) then
        (65536 + (u - 55296) * 1024 + (u2 - 56320)) :: surrCombine rest
      else u :: surrCombine (.uesc u2 :: rest)
  | .uesc u :: rest => u :: surrCombine rest
  | .lit c :: rest => c :: surrCombine rest

/-- `py_scanstring` after the opening quote: the string's code points and the
remaining input. -/
def parseStringBody (s : List Nat) : Option (PyStr × List Nat) :=
  (strTokens s).map (fun p => (surrCombine p.1, p.2))

/-- Maximal run of decimal digits, accumulating into `acc`. -/
def parseDigitsGo (acc : Nat) : List Nat → Nat × List Nat
  | c :: rest =>
      if 48 ≤ c ∧ c ≤ 57 then parseDigitsGo (acc * 10 + (c - 48)) rest else (acc, c :: rest)
  | [] => (acc, [])

/-- The JSON integer-part grammar `0 | [1-9][0-9]*` (no leading zeros). -/
def parseJNat : List Nat → Option (Nat × List Nat)
  | [] => none
  | c :: rest =>
      if c = 48 then some (0, rest)
      else if 49 ≤ c ∧ c ≤ 57 then some (parseDigitsGo (c - 48) rest)
      else none

/-- A JSON integer literal with optional leading minus. -/
def parseJInt : List Nat → Option (Int × List Nat)
  | [] => none
  | c :: rest =>
      if c = 45 then (parseJNat rest).map (fun p => (-(p.1 : Int), p.2))
      else (parseJNat (c :: rest)).map (fun p => ((p.1 : Int), p.2))

mutual

/-- `json.loads`-style value parser with explicit fuel.  Mirrors the scanner
in `json/scanner.py`: leading whitespace, then object / array / string /
`true` / `false` / `null` / number dispatch on the first character. -/
def parseValue : Nat → List Nat → Option (JValue × List Nat)
  | 0, _ => none
  | fuel + 1, s =>
      match skipWS s with
      | [] => none
      | c :: rest =>
          if c = 123 then
            match skipWS rest with
            | 125 :: r2 => some (.obj [], r2)
            | r2 => (parseMembers fuel r2).map (fun p => (JValue.obj p.1, p.2))
          else if c = 91 then
            match skipWS rest with
            | 93 :: r2 => some (.arr [], r2)
            | r2 => (parseElems fuel r2).map (fun p => (JValue.arr p.1, p.2))
          else if c = 34 then (parseStringBody rest).map (fun p => (JValue.str p.1, p.2))
          else if c = 110 then
            match rest with
            | 117 :: 108 :: 108 :: r => some (.null, r)
            | _ => none
          else if c = 116 then
            match rest with
            | 114 :: 117 :: 101 :: r => some (.bool true, r)
            | _ => none
          else if c = 102 then
            match rest with
            | 97 :: 108 :: 115 :: 101 :: r => some (.bool false, r)
            | _ => none
          else
            match parseJInt (c :: rest) with
            | none => none
            | some (n, r) =>
                match r with
                | 46 :: _ => none
                | 101 :: _ => none
                | 69 :: _ => none
                | _ => some (.num n, r)

/-- Object-member loop after `{` (and after any whitespace), when the object
is not empty: `"key": value`, continued by `,` or closed by `}`. -/
def parseMembers : Nat → List Nat → Option (List (PyStr × JValue) × List Nat)
  | 0, _ => none
  | fuel + 1, s =>
      match s with
      | 34 :: rest =>
          (match parseStringBody rest with
           | none => none
           | some (k, r1) =>
              match skipWS r1 with
              | 58 :: r2 =>
                  (match parseValue fuel r2 with
                   | none => none
                   | some (v, r3) =>
                      match skipWS r3 with
                      | 44 :: r4 =>
                          (parseMembers fuel (skipWS r4)).map
                            (fun p => ((k, v) :: p.1, p.2))
                      | 125 :: r4 => some ([(k, v)], r4)
                      | _ => none)
              | _ => none)
      | _ => none

/-- Array-element loop after `[` when the array is not empty. -/
def parseElems : Nat → List Nat → Option (List JValue × List Nat)
  | 0, _ => none
  | fuel + 1, s =>
      match parseValue fuel s with
      | none => none
      | some (v, r1) =>
          match skipWS r1 with
          | 44 :: r2 => (parseElems fuel r2).map (fun p => (v :: p.1, p.2))
          | 93 :: r2 => some ([v], r2)
          | _ => none

end

/-- `json.loads` on a code-point string: parse one value, then require only
whitespace to remain.  The fuel `s.length + 1` dominates the recursion, which
consumes at least one character per unit of fuel spent. -/
def jsonLoads (s : PyStr) : Option JValue :=
  match parseValue (s.length + 1) s with
  | some (v, rest) =>
      match skipWS rest with
      | [] => some v
      | _ => none
  | none => none

/-- Join rendered items with the default `", "` item separator. -/
def joinCommaSpace : List (List Nat) → List Nat
  | [] => []
  | [x] => x
  | x :: y :: xs => x ++ 44 :: 32 :: joinCommaSpace (y :: xs)

/-- `json.dumps` of the `create_token` header dict for the default `HS512`
algorithm: the concrete string with `typ` and `alg` in insertion order and
the default separators. -/
def json_dumps_header : PyStr := ofStr "\x7b\"typ\": \"JWT\", \"alg\": \"HS512\"\x7d"

/-- The rendered members of a `dict[str, str]`, joined with `", "`. -/
def dumpDataMembers (data : List (PyStr × PyStr)) : List Nat :=
  joinCommaSpace (data.map (fun kv => dumpJStr kv.1 ++ 58 :: 32 :: dumpJStr kv.2))

/-- `json.dumps` of a `dict[str, str]` (the `data` member of the payload):
keys in insertion order, `", "` between items, `": "` between key and value. -/
def json_dumps_strdict (data : List (PyStr × PyStr)) : PyStr :=
  123 :: dumpDataMembers data ++ [125]

/-- `json.dumps` of the payload dict built in `create_token`:
the `exp` integer first, then the `data` dict, in insertion order. -/
def json_dumps_payload (exp : Int) (data : List (PyStr × PyStr)) : PyStr :=
  123 :: (ofStr "\"exp\": " ++ intDec exp ++ ofStr ", \"data\": "
    ++ json_dumps_strdict data) ++ [125]

/-! ### Decimal literals round-trip -/

theorem natDecAux_digits : ∀ (f n : Nat), n < f → ∀ c ∈ natDecAux f n, 48 ≤ c ∧ c ≤ 57
  | 0, n, h => absurd h (by omega)
  | f + 1, n, h => by
      intro c hc
      by_cases h10 : n < 10
      · simp only [natDecAux, if_pos h10, List.mem_singleton] at hc
        omega
      · simp only [natDecAux, if_neg h10, List.mem_append, List.mem_singleton] at hc
        rcases hc with hc | hc
        · exact natDecAux_digits f (n / 10) (by omega) c hc
        · omega

theorem natDecAux_head : ∀ (f n : Nat), n < f →
    ∃ c t, natDecAux f n = c :: t ∧ 48 ≤ c ∧ c ≤ 57 ∧ (1 ≤ n → 49 ≤ c)
  | 0, n, h => absurd h (by omega)
  | f + 1, n, h => by
      by_cases h10 : n < 10
      · exact ⟨48 + n, [], by simp [natDecAux, h10], by omega, by omega, by omega⟩
      · obtain ⟨c, t, heq, h1, h2, h3⟩ := natDecAux_head f (n / 10) (by omega)
        refine ⟨c, t ++ [48 + n % 10], ?_, h1, h2, fun _ => h3 (by omega)⟩
        simp [natDecAux, h10, heq]

theorem natDecAux_foldl : ∀ (f n : Nat), n < f → ∀ acc : Nat,
    (natDecAux f n).foldl (fun a c => a * 10 + (c - 48)) acc
      = acc * 10 ^ (natDecAux f n).length + n
  | 0, n, h => absurd h (by omega)
  | f + 1, n, h => by
      intro acc
      by_cases h10 : n < 10
      · simp only [natDecAux, if_pos h10, List.foldl_cons, List.foldl_nil,
          List.length_singleton, pow_one]
        omega
      · simp only [natDecAux, if_neg h10, List.foldl_append, List.foldl_cons, List.foldl_nil,
          List.length_append, List.length_singleton]
        rw [natDecAux_foldl f (n / 10) (by omega) acc, pow_succ]
        have hd : 48 + n % 10 - 48 = n % 10 := by omega
        rw [hd]
        have hmul : acc * (10 ^ (natDecAux f (n / 10)).length * 10)
            = acc * 10 ^ (natDecAux f (n / 10)).length * 10 := by ring
        rw [hmul]
        omega

/-- The input continuation cannot extend a digit run. -/
def nonDigitHead : List Nat → Prop
  | [] => True
  | c :: _ => ¬ (48 ≤ c ∧ c ≤ 57)

instance : DecidablePred nonDigitHead := fun l =>
  match l with
  | [] => Decidable.isTrue trivial
  | _ :: _ => (inferInstance : Decidable (¬ _))

theorem parseDigitsGo_append : ∀ (ds : List Nat), (∀ c ∈ ds, 48 ≤ c ∧ c ≤ 57) →
    ∀ (acc : Nat) (rest : List Nat), nonDigitHead rest →
    parseDigitsGo acc (ds ++ rest) = (ds.foldl (fun a c => a * 10 + (c - 48)) acc, rest)
  | [], _, acc, rest, hrest => by
      cases rest with
      | nil => rfl
      | cons c t =>
          simp only [List.nil_append, List.foldl_nil, parseDigitsGo]
          rw [if_neg hrest]
  | d :: ds, h, acc, rest, hrest => by
      have hd : 48 ≤ d ∧ d ≤ 57 := h d (by simp)
      simp only [List.cons_append, parseDigitsGo, if_pos hd, List.foldl_cons]
      exact parseDigitsGo_append ds (fun c hc => h c (by simp [hc])) _ rest hrest

theorem parseJNat_natDec (n : Nat) (rest : List Nat) (hrest : nonDigitHead rest) :
    parseJNat (natDec n ++ rest) = some (n, rest) := by
  rcases Nat.eq_zero_or_pos n with rfl | hpos
  · show parseJNat (48 :: rest) = some (0, rest)
    simp [parseJNat]
  · obtain ⟨c, t, heq, h1, h2, h3⟩ := natDecAux_head (n + 1) n (by omega)
    have hc9 : 49 ≤ c := h3 hpos
    have hdigits := natDecAux_digits (n + 1) n (by omega)
    rw [natDec, heq, List.cons_append]
    simp only [parseJNat, if_neg (by omega : ¬ c = 48), if_pos (by omega : 49 ≤ c ∧ c ≤ 57)]
    rw [parseDigitsGo_append t
      (fun x hx => hdigits x (by rw [heq]; exact List.mem_cons_of_mem _ hx)) _ rest hrest]
    have := natDecAux_foldl (n + 1) n (by omega) 0
    rw [heq, List.foldl_cons] at this
    simp only [Nat.zero_mul, Nat.zero_add] at this
    rw [this]

theorem parseJInt_intDec (i : Int) (rest : List Nat) (hrest : nonDigitHead rest) :
    parseJInt (intDec i ++ rest) = some (i, rest) := by
  cases i with
  | ofNat n =>
      obtain ⟨c, t, heq, h1, h2, _⟩ := natDecAux_head (n + 1) n (by omega)
      have : intDec (Int.ofNat n) ++ rest = c :: (t ++ rest) := by
        simp [intDec, natDec, heq]
      rw [this]
      simp only [parseJInt, if_neg (by omega : ¬ c = 45)]
      have hback : c :: (t ++ rest) = natDec n ++ rest := by
        simp [natDec, heq]
      rw [hback, parseJNat_natDec n rest hrest]
      rfl
  | negSucc m =>
      show parseJInt (45 :: (natDec (m + 1) ++ rest)) = _
      simp only [parseJInt, if_pos rfl]
      rw [parseJNat_natDec (m + 1) rest hrest]
      simp [Int.negSucc_eq]

/-! ### String literals round-trip -/

/-- A Unicode scalar value: below the plane limit and not a surrogate.
CPython strings may carry lone surrogates, and `json.loads` re-combines an
escaped surrogate pair into one code point, so only scalar strings are
guaranteed to round-trip through `json.dumps`/`json.loads` verbatim. -/
def ScalarChar (c : Nat) : Prop := c < 55296 ∨ (57344 ≤ c ∧ c < 1114112)

instance : DecidablePred ScalarChar := fun c =>
  (inferInstance : Decidable (c < 55296 ∨ (57344 ≤ c ∧ c < 1114112)))

/-- A string of Unicode scalar values. -/
def ScalarStr (s : PyStr) : Prop := ∀ c ∈ s, ScalarChar c

instance : DecidablePred ScalarStr := fun s =>
  (inferInstance : Decidable (∀ c ∈ s, ScalarChar c))

/-- The tokens `strTokens` recovers from the escape of one code point. -/
def charToks (c : Nat) : List STok :=
  if c = 34 ∨ c = 92 ∨ c = 8 ∨ c = 9 ∨ c = 10 ∨ c = 12 ∨ c = 13 then [.lit c]
  else if c < 32 then [.uesc c]
  else if c < 127 then [.lit c]
  else if c < 65536 then [.uesc c]
  else [.uesc (55296 + (c - 65536) / 1024), .uesc (56320 + (c - 65536) % 1024)]

theorem hexVal_hexDigit : ∀ d < 16, hexVal (hexDigit d) = some d := by decide

theorem hex4Val_hex4 (n : Nat) (h : n < 65536) :
    hex4Val (hexDigit (n / 4096 % 16)) (hexDigit (n / 256 % 16))
      (hexDigit (n / 16 % 16)) (hexDigit (n % 16)) = some n := by
  unfold hex4Val
  rw [hexVal_hexDigit _ (by omega), hexVal_hexDigit _ (by omega),
    hexVal_hexDigit _ (by omega), hexVal_hexDigit _ (by omega)]
  simp only [Option.some.injEq]
  omega

/-- Tokenizing one `\uXXXX` escape yields its hex value. -/
theorem strTokens_uesc (u : Nat) (hu : u < 65536) (X : List Nat) :
    strTokGo .norm ((92 :: 117 :: hex4 u) ++ X)
      = (strTokGo .norm X).map (fun p => (STok.uesc u :: p.1, p.2)) := by
  have e1 : hexVal (hexDigit (u / 4096 % 16)) = some (u / 4096 % 16) :=
    hexVal_hexDigit _ (by omega)
  have e2 : hexVal (hexDigit (u / 256 % 16)) = some (u / 256 % 16) :=
    hexVal_hexDigit _ (by omega)
  have e3 : hexVal (hexDigit (u / 16 % 16)) = some (u / 16 % 16) :=
    hexVal_hexDigit _ (by omega)
  have e4 : hexVal (hexDigit (u % 16)) = some (u % 16) :=
    hexVal_hexDigit _ (by omega)
  simp only [hex4, List.cons_append, List.nil_append, strTokGo, e1, e2, e3, e4,
    if_pos rfl]
  norm_num
  have hv : ((u / 4096 % 16 * 16 + u / 256 % 16) * 16 + u / 16 % 16) * 16 + u % 16 = u := by
    omega
  rw [hv]

/-- Tokenizing the escape of a string stops exactly at the closing quote. -/
theorem strTokens_escape : ∀ (s : PyStr), ScalarStr s → ∀ rest : List Nat,
    strTokGo .norm (s.flatMap escChar ++ 34 :: rest) = some (s.flatMap charToks, rest)
  | [], _, rest => by
      simp only [List.flatMap_nil, List.nil_append]
      rfl
  | c :: s', h, rest => by
      have hc : ScalarChar c := h c (by simp)
      have ih := strTokens_escape s' (fun x hx => h x (by simp [hx])) rest
      simp only [List.flatMap_cons, List.append_assoc]
      by_cases h34 : c = 34
      · subst h34
        simp [escChar, charToks, strTokGo, escCode, ih]
      · by_cases h92 : c = 92
        · subst h92
          simp [escChar, charToks, strTokGo, escCode, ih]
        · by_cases h8 : c = 8
          · subst h8
            simp [escChar, charToks, strTokGo, escCode, ih]
          · by_cases h9 : c = 9
            · subst h9
              simp [escChar, charToks, strTokGo, escCode, ih]
            · by_cases h10 : c = 10
              · subst h10
                simp [escChar, charToks, strTokGo, escCode, ih]
              · by_cases h12 : c = 12
                · subst h12
                  simp [escChar, charToks, strTokGo, escCode, ih]
                · by_cases h13 : c = 13
                  · subst h13
                    simp [escChar, charToks, strTokGo, escCode, ih]
                  · have hesc : escChar c =
                        if c < 32 then 92 :: 117 :: hex4 c
                        else if c < 127 then [c]
                        else if c < 65536 then 92 :: 117 :: hex4 c
                        else (92 :: 117 :: hex4 (55296 + (c - 65536) / 1024))
                          ++ (92 :: 117 :: hex4 (56320 + (c - 65536) % 1024)) := by
                      simp [escChar, h34, h92, h8, h9, h10, h12, h13]
                    have htoks : charToks c =
                        if c < 32 then [STok.uesc c]
                        else if c < 127 then [STok.lit c]
                        else if c < 65536 then [STok.uesc c]
                        else [STok.uesc (55296 + (c - 65536) / 1024),
                          STok.uesc (56320 + (c - 65536) % 1024)] := by
                      simp [charToks, h34, h92, h8, h9, h10, h12, h13]
                    rw [hesc, htoks]
                    by_cases hlt32 : c < 32
                    · rw [if_pos hlt32, if_pos hlt32, strTokens_uesc c (by omega), ih]
                      rfl
                    · rw [if_neg hlt32, if_neg hlt32]
                      by_cases hlt127 : c < 127
                      · rw [if_pos hlt127, if_pos hlt127]
                        simp only [List.singleton_append]
                        show strTokGo .norm (c :: (s'.flatMap escChar ++ 34 :: rest))
                          = some (STok.lit c :: s'.flatMap charToks, rest)
                        simp only [strTokGo]
                        rw [if_neg h34, if_neg h92, if_neg (by omega : ¬ c < 32), ih]
                        rfl
                      · rw [if_neg hlt127, if_neg hlt127]
                        by_cases hbmp : c < 65536
                        · rw [if_pos hbmp, if_pos hbmp, strTokens_uesc c hbmp, ih]
                          rfl
                        · rw [if_neg hbmp, if_neg hbmp]
                          have hlo : c < 1114112 := by
                            rcases hc with hc | hc
                            · omega
                            · exact hc.2
                          rw [List.append_assoc]
                          rw [strTokens_uesc _ (by omega)]
                          rw [strTokens_uesc _ (by omega), ih]
                          rfl

/-- A `\uXXXX` token that is not a high surrogate contributes its own code
point regardless of what follows. -/
theorem surrCombine_nothigh (c : Nat) (hc : ¬ (55296 ≤ c ∧ c ≤ 56319)) (ts : List STok) :
    surrCombine (.uesc c :: ts) = c :: surrCombine ts := by
  cases ts with
  | nil => rfl
  | cons t ts' =>
      cases t with
      | uesc u2 =>
          simp only [surrCombine]
          rw [if_neg (by tauto)]
      | lit c2 => rfl

/-- An adjacent escaped high/low surrogate pair combines into one code point. -/
theorem surrCombine_pair (u u2 : Nat) (h1 : 55296 ≤ u ∧ u ≤ 56319)
    (h2 : 56320 ≤ u2 ∧ u2 ≤ 57343) (ts : List STok) :
    surrCombine (.uesc u :: .uesc u2 :: ts)
      = (65536 + (u - 55296) * 1024 + (u2 - 56320)) :: surrCombine ts := by
  show (if (55296 ≤ u ∧ u ≤ 56319) ∧ (56320 ≤ u2 ∧ u2 ≤ 57343) then
      (65536 + (u - 55296) * 1024 + (u2 - 56320)) :: surrCombine ts
    else u :: surrCombine (.uesc u2 :: ts)) = _
  rw [if_pos ⟨h1, h2⟩]

/-- Re-combining the tokens of an escaped scalar string recovers it. -/
theorem surrCombine_charToks : ∀ (s : PyStr), ScalarStr s →
    surrCombine (s.flatMap charToks) = s
  | [], _ => rfl
  | c :: s', h => by
      have hc : ScalarChar c := h c (by simp)
      have ih := surrCombine_charToks s' (fun x hx => h x (by simp [hx]))
      simp only [List.flatMap_cons]
      by_cases hlit : c = 34 ∨ c = 92 ∨ c = 8 ∨ c = 9 ∨ c = 10 ∨ c = 12 ∨ c = 13
      · rw [show charToks c = [STok.lit c] from by simp [charToks, hlit]]
        show surrCombine (.lit c :: s'.flatMap charToks) = c :: s'
        rw [show surrCombine (.lit c :: s'.flatMap charToks)
          = c :: surrCombine (s'.flatMap charToks) from rfl, ih]
      · by_cases h32 : c < 32
        · rw [show charToks c = [STok.uesc c] from by simp [charToks, hlit, h32]]
          rw [List.singleton_append, surrCombine_nothigh c (by omega), ih]
        · by_cases h127 : c < 127
          · rw [show charToks c = [STok.lit c] from by simp [charToks, hlit, h32, h127]]
            show surrCombine (.lit c :: s'.flatMap charToks) = c :: s'
            rw [show surrCombine (.lit c :: s'.flatMap charToks)
              = c :: surrCombine (s'.flatMap charToks) from rfl, ih]
          · by_cases hbmp : c < 65536
            · rw [show charToks c = [STok.uesc c] from by
                simp [charToks, hlit, h32, h127, hbmp]]
              have : ¬ (55296 ≤ c ∧ c ≤ 56319) := by
                rcases hc with hc | hc
                · omega
                · omega
              rw [List.singleton_append, surrCombine_nothigh c this, ih]
            · have hlo : c < 1114112 := by
                rcases hc with hc | hc
                · omega
                · exact hc.2
              rw [show charToks c = [STok.uesc (55296 + (c - 65536) / 1024),
                STok.uesc (56320 + (c - 65536) % 1024)] from by
                simp [charToks, hlit, h32, h127, hbmp]]
              have hpair := surrCombine_pair (55296 + (c - 65536) / 1024)
                (56320 + (c - 65536) % 1024) ⟨by omega, by omega⟩ ⟨by omega, by omega⟩
                (s'.flatMap charToks)
              simp only [List.cons_append, List.nil_append]
              rw [hpair, ih]
              exact congrArg (fun x => x :: s') (by omega)

/-- The string codec round-trip: `py_scanstring` inverts the
`ensure_ascii` escaping of any scalar string, stopping at the closing quote. -/
theorem parseStringBody_escape (s : PyStr) (hs : ScalarStr s) (rest : List Nat) :
    parseStringBody (s.flatMap escChar ++ 34 :: rest) = some (s, rest) := by
  simp only [parseStringBody, strTokens]
  rw [strTokens_escape s hs rest]
  simp [surrCombine_charToks s hs]

/-! ### Object and payload round-trip -/

/-- The JSON value of the `data` dict: every value is a string. -/
def stateDataJV (data : List (PyStr × PyStr)) : List (PyStr × JValue) :=
  data.map (fun kv => (kv.1, JValue.str kv.2))

/-- The JSON value `json.loads` recovers from the payload. -/
def payloadJV (e : Int) (data : List (PyStr × PyStr)) : JValue :=
  .obj [(ofStr "exp", .num e), (ofStr "data", .obj (stateDataJV data))]

theorem skipWS_cons (c : Nat) (X : List Nat) (h : ¬ (c = 32 ∨ c = 9 ∨ c = 10 ∨ c = 13)) :
    skipWS (c :: X) = c :: X := by
  simp only [skipWS, if_neg h]

theorem skipWS_space (X : List Nat) : skipWS (32 :: X) = skipWS X := by
  simp [skipWS]

/-- Parsing a rendered string value (preceded by the space that follows a
`": "` or `", "` separator) at any positive fuel. -/
theorem parseValue_str (f : Nat) (v : PyStr) (hv : ScalarStr v) (rest : List Nat) :
    parseValue (f + 1) (32 :: (dumpJStr v ++ rest)) = some (.str v, rest) := by
  have hshape : dumpJStr v ++ rest = 34 :: (v.flatMap escChar ++ 34 :: rest) := by
    simp [dumpJStr]
  simp only [parseValue, skipWS_space, hshape, skipWS_cons 34 _ (by omega), if_true,
    parseStringBody_escape v hv rest]
  rfl

/-- Parsing a rendered integer value followed by a comma at any positive
fuel. -/
theorem parseValue_int (f : Nat) (e : Int) (X : List Nat) :
    parseValue (f + 1) (32 :: (intDec e ++ 44 :: X)) = some (.num e, 44 :: X) := by
  have hhead : ∃ c t, intDec e = c :: t ∧ 45 ≤ c ∧ c ≤ 57 ∧ c ≠ 46 ∧ c ≠ 47 := by
    cases e with
    | ofNat n =>
        obtain ⟨c, t, heq, h1, h2, _⟩ := natDecAux_head (n + 1) n (by omega)
        exact ⟨c, t, by simp [intDec, natDec, heq], by omega, by omega, by omega, by omega⟩
    | negSucc m => exact ⟨45, natDec (m + 1), rfl, by omega, by omega, by omega, by omega⟩
  obtain ⟨c, t, heq, hc1, hc2, hc3, hc4⟩ := hhead
  have hshape : intDec e ++ 44 :: X = c :: (t ++ 44 :: X) := by rw [heq]; rfl
  simp only [parseValue, skipWS_space, hshape, skipWS_cons c _ (by omega)]
  rw [if_neg (by omega), if_neg (by omega), if_neg (by omega), if_neg (by omega),
    if_neg (by omega), if_neg (by omega)]
  rw [← hshape, parseJInt_intDec e (44 :: X) (by
    show ¬ (48 ≤ 44 ∧ 44 ≤ 57)
    omega)]

/-- Parsing the rendered members of a nonempty `dict[str, str]`, with fuel at
least the number of members. -/
theorem parseMembers_data : ∀ (data : List (PyStr × PyStr)) (f : Nat) (rest : List Nat),
    (∀ kv ∈ data, ScalarStr kv.1 ∧ ScalarStr kv.2) → data ≠ [] → data.length ≤ f →
    parseMembers (f + 1) (dumpDataMembers data ++ 125 :: rest)
      = some (stateDataJV data, rest)
  | [], _, _, _, hne, _ => absurd rfl hne
  | [kv], f, rest, hsc, _, hlen => by
      obtain ⟨hk, hv⟩ := hsc kv (by simp)
      have hshape : dumpDataMembers [kv] ++ 125 :: rest
          = 34 :: (kv.1.flatMap escChar
            ++ 34 :: (58 :: (32 :: (dumpJStr kv.2 ++ 125 :: rest)))) := by
        simp [dumpDataMembers, joinCommaSpace, dumpJStr]
      rw [hshape]
      simp only [parseMembers, parseStringBody_escape kv.1 hk,
        skipWS_cons 58 _ (by omega)]
      cases f with
      | zero => simp at hlen
      | succ f' =>
          simp only [parseValue_str f' kv.2 hv, skipWS_cons 125 _ (by omega)]
          rfl
  | kv :: kv2 :: tl, f, rest, hsc, _, hlen => by
      obtain ⟨hk, hv⟩ := hsc kv (by simp)
      have hshape : dumpDataMembers (kv :: kv2 :: tl) ++ 125 :: rest
          = 34 :: (kv.1.flatMap escChar
            ++ 34 :: (58 :: (32 :: (dumpJStr kv.2
              ++ 44 :: (32 :: (dumpDataMembers (kv2 :: tl) ++ 125 :: rest)))))) := by
        simp [dumpDataMembers, joinCommaSpace, dumpJStr]
      rw [hshape]
      simp only [parseMembers, parseStringBody_escape kv.1 hk,
        skipWS_cons 58 _ (by omega)]
      cases f with
      | zero => simp at hlen
      | succ f' =>
          simp only [parseValue_str f' kv.2 hv, skipWS_cons 44 _ (by omega)]
          have hmemb : ∃ t, dumpDataMembers (kv2 :: tl) ++ 125 :: rest = 34 :: t := by
            refine ⟨kv2.1.flatMap escChar ++ 34 :: (58 :: (32 :: (dumpJStr kv2.2
              ++ ?_))), ?_⟩
            · exact (match tl with
                | [] => 125 :: rest
                | kv3 :: tl' => 44 :: (32 :: (dumpDataMembers (kv3 :: tl')
                    ++ 125 :: rest)))
            · cases tl with
              | nil => simp [dumpDataMembers, joinCommaSpace, dumpJStr]
              | cons kv3 tl' => simp [dumpDataMembers, joinCommaSpace, dumpJStr]
          obtain ⟨t, heqm⟩ := hmemb
          rw [skipWS_space, heqm, skipWS_cons 34 _ (by omega), ← heqm]
          rw [parseMembers_data (kv2 :: tl) f' rest
            (fun x hx => hsc x (by simp at hx ⊢; tauto)) (by simp)
            (by simp at hlen ⊢; omega)]
          rfl

/-- Parsing a rendered `dict[str, str]` value (after its leading space), with
fuel exceeding the number of members. -/
theorem parseValue_strdict (f : Nat) (data : List (PyStr × PyStr)) (rest : List Nat)
    (hsc : ∀ kv ∈ data, ScalarStr kv.1 ∧ ScalarStr kv.2)
    (hlen : data.length + 1 ≤ f) :
    parseValue (f + 1) (32 :: (json_dumps_strdict data ++ rest))
      = some (.obj (stateDataJV data), rest) := by
  cases data with
  | nil =>
      have hshape : json_dumps_strdict [] ++ rest = 123 :: (125 :: rest) := by
        simp [json_dumps_strdict, dumpDataMembers, joinCommaSpace]
      simp only [hshape, parseValue, skipWS_space, skipWS_cons 123 _ (by omega), if_true,
        skipWS_cons 125 _ (by omega)]
      rfl
  | cons kv tl =>
      have hshape : json_dumps_strdict (kv :: tl) ++ rest
          = 123 :: (dumpDataMembers (kv :: tl) ++ 125 :: rest) := by
        simp [json_dumps_strdict]
      have hmemb : ∃ t, dumpDataMembers (kv :: tl) ++ 125 :: rest = 34 :: t := by
        refine ⟨kv.1.flatMap escChar ++ 34 :: (58 :: (32 :: (dumpJStr kv.2 ++ ?_))), ?_⟩
        · exact (match tl with
            | [] => 125 :: rest
            | kv3 :: tl' => 44 :: (32 :: (dumpDataMembers (kv3 :: tl') ++ 125 :: rest)))
        · cases tl with
          | nil => simp [dumpDataMembers, joinCommaSpace, dumpJStr]
          | cons kv3 tl' => simp [dumpDataMembers, joinCommaSpace, dumpJStr]
      obtain ⟨t, heqm⟩ := hmemb
      simp only [hshape, parseValue, skipWS_space, skipWS_cons 123 _ (by omega), if_true]
      rw [heqm]
      simp only [skipWS_cons 34 _ (by omega)]
      rw [← heqm]
      cases f with
      | zero => simp at hlen
      | succ f' =>
          rw [parseMembers_data (kv :: tl) f' rest hsc (by simp)
            (by simp at hlen ⊢; omega)]
          rfl

/-- The payload codec round-trip at sufficient fuel: parsing the rendered
`exp`/`data` payload recovers its JSON value. -/
theorem parseValue_payload (f : Nat) (e : Int) (data : List (PyStr × PyStr))
    (rest : List Nat)
    (hsc : ∀ kv ∈ data, ScalarStr kv.1 ∧ ScalarStr kv.2)
    (hlen : data.length + 4 ≤ f) :
    parseValue (f + 1) (json_dumps_payload e data ++ rest)
      = some (payloadJV e data, rest) := by
  have h1 : ofStr "\"exp\": " = [34, 101, 120, 112, 34, 58, 32] := rfl
  have h2 : ofStr ", \"data\": " = [44, 32, 34, 100, 97, 116, 97, 34, 58, 32] := rfl
  have hshape : json_dumps_payload e data ++ rest
      = 123 :: 34 :: 101 :: 120 :: 112 :: 34 :: 58 :: 32 :: (intDec e
        ++ 44 :: 32 :: 34 :: 100 :: 97 :: 116 :: 97 :: 34 :: 58 :: 32 ::
        (json_dumps_strdict data ++ 125 :: rest)) := by
    simp [json_dumps_payload, h1, h2]
  have hkey1 : parseStringBody (101 :: 120 :: 112 :: 34 :: 58 :: 32 :: (intDec e
        ++ 44 :: 32 :: 34 :: 100 :: 97 :: 116 :: 97 :: 34 :: 58 :: 32 ::
        (json_dumps_strdict data ++ 125 :: rest)))
      = some (ofStr "exp", 58 :: 32 :: (intDec e
        ++ 44 :: 32 :: 34 :: 100 :: 97 :: 116 :: 97 :: 34 :: 58 :: 32 ::
        (json_dumps_strdict data ++ 125 :: rest))) := rfl
  have hkey2 : parseStringBody (100 :: 97 :: 116 :: 97 :: 34 :: 58 :: 32 ::
        (json_dumps_strdict data ++ 125 :: rest))
      = some (ofStr "data", 58 :: 32 ::
        (json_dumps_strdict data ++ 125 :: rest)) := rfl
  rw [hshape]
  simp only [parseValue, skipWS_cons 123 _ (by omega), if_true,
    skipWS_cons 34 _ (by omega)]
  cases f with
  | zero => omega
  | succ f1 =>
      simp only [parseMembers, hkey1, skipWS_cons 58 _ (by omega)]
      cases f1 with
      | zero => omega
      | succ f2 =>
          simp only [parseValue_int f2 e, skipWS_cons 44 _ (by omega)]
          simp only [parseMembers, skipWS_space, skipWS_cons 34 _ (by omega), hkey2,
            skipWS_cons 58 _ (by omega)]
          cases f2 with
          | zero => omega
          | succ f3 =>
              simp only [parseValue_strdict f3 data (125 :: rest) hsc (by omega),
                skipWS_cons 125 _ (by omega)]
              rfl

/-! ### `json.loads` round-trip on the payload -/

theorem intDec_ne_nil (e : Int) : intDec e ≠ [] := by
  cases e with
  | ofNat n =>
      obtain ⟨c, t, heq, _, _, _⟩ := natDecAux_head (n + 1) n (by omega)
      simp [intDec, natDec, heq]
  | negSucc m => simp [intDec]

theorem joinCommaSpace_length : ∀ (ls : List (List Nat)),
    (∀ x ∈ ls, 1 ≤ x.length) → ls.length ≤ (joinCommaSpace ls).length
  | [], _ => by simp [joinCommaSpace]
  | [x], h => by
      have := h x (by simp)
      simp only [joinCommaSpace, List.length_singleton]
      omega
  | x :: y :: xs, h => by
      have hx := h x (by simp)
      have ih := joinCommaSpace_length (y :: xs) (fun z hz => h z (by simp at hz ⊢; tauto))
      simp only [joinCommaSpace, List.length_append, List.length_cons] at ih ⊢
      omega

theorem json_dumps_payload_length (e : Int) (data : List (PyStr × PyStr)) :
    data.length + 4 ≤ (json_dumps_payload e data).length := by
  have h1 : data.length ≤ (dumpDataMembers data).length := by
    refine joinCommaSpace_length _ ?_ |>.trans_eq' ?_
    · intro x hx
      simp only [List.mem_map] at hx
      obtain ⟨kv, _, rfl⟩ := hx
      simp [dumpJStr]
    · simp [dumpDataMembers]
  simp only [json_dumps_payload, json_dumps_strdict, ofStr]
  simp only [List.length_cons, List.length_append, List.length_cons]
  simp
  omega

/-- `json.loads` applied to the rendered payload of a scalar state dict. -/
theorem jsonLoads_payload (e : Int) (data : List (PyStr × PyStr))
    (hsc : ∀ kv ∈ data, ScalarStr kv.1 ∧ ScalarStr kv.2) :
    jsonLoads (json_dumps_payload e data) = some (payloadJV e data) := by
  have h := parseValue_payload (json_dumps_payload e data).length e data [] hsc
    (json_dumps_payload_length e data)
  rw [List.append_nil] at h
  simp [jsonLoads, h, skipWS]

/-! ## UTF-8 (`str.encode` / the decode inside `json.loads(bytes)`) -/

/-- UTF-8 encoding of one code point; surrogates raise `UnicodeEncodeError`
as in CPython's strict codec. -/
def utf8EncodeChar (c : Nat) : Except PyExc Bytes :=
  if c < 128 then .ok [c]
  else if c < 2048 then .ok [192 + c / 64, 128 + c % 64]
  else if 55296 ≤ c ∧ c ≤ 57343 then .error .unicodeEncodeError
  else if c < 65536 then .ok [224 + c / 4096, 128 + c / 64 % 64, 128 + c % 64]
  else .ok [240 + c / 262144, 128 + c / 4096 % 64, 128 + c / 64 % 64, 128 + c % 64]

/-- `str.encode("utf-8")`. -/
def utf8Encode : PyStr → Except PyExc Bytes
  | [] => .ok []
  | c :: rest =>
      match utf8EncodeChar c, utf8Encode rest with
      | .ok bs, .ok bs2 => .ok (bs ++ bs2)
      | .error e, _ => .error e
      | _, .error e => .error e

/-- The UTF-8 decoding scan: `k` continuation bytes still expected, `v` the
value accumulated so far, `m` the smallest code point the current sequence is
allowed to produce (overlong rejection). -/
def utf8DecGo : Nat → Nat → Nat → Bytes → Except PyExc PyStr
  | 0, _, _, [] => .ok []
  | _ + 1, _, _, [] => .error .unicodeDecodeError
  | 0, _, _, b :: rest =>
      if b < 128 then
        match utf8DecGo 0 0 0 rest with
        | .ok cs => .ok (b :: cs)
        | .error e => .error e
      else if b < 192 then .error .unicodeDecodeError
      else if b < 224 then utf8DecGo 1 (b - 192) 128 rest
      else if b < 240 then utf8DecGo 2 (b - 224) 2048 rest
      else if b < 248 then utf8DecGo 3 (b - 240) 65536 rest
      else .error .unicodeDecodeError
  | k + 1, v, m, b :: rest =>
      if 128 ≤ b ∧ b < 192 then
        if k = 0 then
          if v * 64 + (b - 128) < m ∨ (55296 ≤ v * 64 + (b - 128) ∧ v * 64 + (b - 128) ≤ 57343)
              ∨ 1114112 ≤ v * 64 + (b - 128) then .error .unicodeDecodeError
          else
            match utf8DecGo 0 0 0 rest with
            | .ok cs => .ok ((v * 64 + (b - 128)) :: cs)
            | .error e => .error e
        else utf8DecGo k (v * 64 + (b - 128)) m rest
      else .error .unicodeDecodeError

/-- `bytes.decode("utf-8")` (strict), as `json.loads` performs on `bytes`. -/
def utf8Decode (bs : Bytes) : Except PyExc PyStr := utf8DecGo 0 0 0 bs

theorem utf8Encode_ascii : ∀ (s : PyStr), (∀ c ∈ s, c < 128) → utf8Encode s = .ok s
  | [], _ => rfl
  | c :: rest, h => by
      have hc : c < 128 := h c (by simp)
      have ih := utf8Encode_ascii rest (fun x hx => h x (by simp [hx]))
      simp [utf8Encode, utf8EncodeChar, hc, ih]

theorem utf8Decode_ascii : ∀ (bs : Bytes), (∀ b ∈ bs, b < 128) → utf8DecGo 0 0 0 bs = .ok bs
  | [], _ => rfl
  | b :: rest, h => by
      have hb : b < 128 := h b (by simp)
      have ih := utf8Decode_ascii rest (fun x hx => h x (by simp [hx]))
      simp [utf8DecGo, hb, ih]

/-! ## `JWTStateResolver` (state.py lines 91-147)

The HMAC digest is kept abstract: theorems are parametric in a function
`hmacD : Bytes → Bytes → Bytes` standing for `hmac.digest(secret, msg, sha512)`. -/

/-- `bytes.rfind(b".")`: index of the last `.` (byte 46), `none` for `-1`. -/
def rfindDot : List Nat → Option Nat
  | [] => none
  | c :: rest =>
      match rfindDot rest with
      | some i => some (i + 1)
      | none => if c = 46 then some 0 else none

/-- `bytes.split(b".")`. -/
def splitDots : List Nat → List (List Nat)
  | [] => [[]]
  | c :: rest =>
      if c = 46 then [] :: splitDots rest
      else
        match splitDots rest with
        | [] => [[c]]
        | h :: t => (c :: h) :: t

/-- `dict.get(key, None)` on the association list produced by `json.loads`
for an object: in CPython the later duplicate key wins. -/
def lookupLast (kvs : List (PyStr × JValue)) (k : PyStr) : Option JValue :=
  match kvs with
  | [] => none
  | (k2, v) :: rest =>
      match lookupLast rest k with
      | some r => some r
      | none => if k2 = k then some v else none

/-- `isinstance(x, int)` on a JSON value (Python `bool` is a subclass of `int`). -/
def pyIntOf : JValue → Option Int
  | .num n => some n
  | .bool b => some (if b then 1 else 0)
  | _ => none

/-- The `typ`/`alg` check on the decoded header (state.py line 124). -/
def headerOk : JValue → Bool
  | .obj kvs =>
      (match lookupLast kvs (ofStr "typ") with
       | some (.str s) => s == ofStr "JWT"
       | _ => false) &&
      (match lookupLast kvs (ofStr "alg") with
       | some (.str s) => s == ofStr "HS512"
       | _ => false)
  | _ => false

/-- `StateDataAdapter.validate_python` for `dict[str, str]`: every value must
be a string (pydantic lax mode does not coerce numbers to `str`). -/
def validateStrDict : List (PyStr × JValue) → Option (List (PyStr × PyStr))
  | [] => some []
  | (k, .str v) :: rest => (validateStrDict rest).map (fun sd => (k, v) :: sd)
  | _ => none

/-- Outcome of the embedded `resolve`: either the repository's own
`StateResolverError`, or an uncaught Python exception escaping `resolve`. -/
inductive ResolveErr where
  | stateResolverError
  | uncaught (e : PyExc)
deriving DecidableEq, Repr

/-- `JWTStateResolver.create_token` (state.py lines 99-112) with `HS512`:
`exp = int((now + max_age).timestamp())` becomes `now + maxAge` over integer
seconds; the `data` dict is the insertion-ordered list `data`. -/
def create_token (hmacD : Bytes → Bytes → Bytes) (secret : Bytes)
    (now maxAge : Int) (data : List (PyStr × PyStr)) : PyStr :=
  let header := b64url_encode json_dumps_header
  let payload := b64url_encode (json_dumps_payload (now + maxAge) data)
  let signature := hmacD secret (header ++ 46 :: payload)
  header ++ 46 :: payload ++ 46 :: b64url_encode signature

/-- `JWTStateResolver.resolve` (state.py lines 114-142) with `HS512`.  Only
the header decode sits in a `try`; a `binascii.Error`, `UnicodeDecodeError`
or `JSONDecodeError` raised while handling the signature or payload segments
escapes uncaught, which `.error (.uncaught _)` records. -/
def resolve (hmacD : Bytes → Bytes → Bytes) (secret : Bytes) (now : Int)
    (token : PyStr) : Except ResolveErr (List (PyStr × PyStr)) :=
  match utf8Encode token with
  | .error e => .error (.uncaught e)
  | .ok rtoken =>
    match rfindDot rtoken with
    | none => .error .stateResolverError
    | some sig_start =>
      let parts := splitDots rtoken
      if parts.length ≠ 3 then .error .stateResolverError
      else
        match (match b64url_decode (parts.headD []) with
               | .error _ => none
               | .ok hb =>
                 match utf8Decode hb with
                 | .error _ => none
                 | .ok hs => jsonLoads hs) with
        | none => .error .stateResolverError
        | some header =>
          if ¬ headerOk header then .error .stateResolverError
          else
            match b64url_decode (rtoken.drop (sig_start + 1)) with
            | .error e => .error (.uncaught e)
            | .ok signature =>
              if signature ≠ hmacD secret (rtoken.take sig_start) then
                .error .stateResolverError
              else
                match b64url_decode ((parts.drop 1).headD []) with
                | .error e => .error (.uncaught e)
                | .ok pb =>
                  match utf8Decode pb with
                  | .error e => .error (.uncaught e)
                  | .ok ps =>
                    match jsonLoads ps with
                    | none => .error (.uncaught .jsonDecodeError)
                    | some payload =>
                      match payload with
                      | .obj kvs =>
                        match pyIntOf ((lookupLast kvs (ofStr "exp")).getD .null),
                              (lookupLast kvs (ofStr "data")).getD .null with
                        | some expv, .obj dataKvs =>
                          if expv < now then .error .stateResolverError
                          else
                            match validateStrDict dataKvs with
                            | some sd => .ok sd
                            | none => .error .stateResolverError
                        | _, _ => .error .stateResolverError
                      | _ => .error .stateResolverError

/-- `App._get_state_from_token` (app.py lines 223-225): only
`StateResolverError` is caught and turned into the empty map. -/
def get_state_from_token (hmacD : Bytes → Bytes → Bytes) (secret : Bytes)
    (now : Int) (token : PyStr) : Except PyExc (List (PyStr × PyStr)) :=
  match resolve hmacD secret now token with
  | .ok d => .ok d
  | .error .stateResolverError => .ok []
  | .error (.uncaught e) => .error e

/-! ### ASCII bounds on the rendered JSON and the base64 alphabet -/

theorem mem_rstripEq {l : List Nat} {c : Nat} (hc : c ∈ rstripEq l) : c ∈ l := by
  simp only [rstripEq, List.mem_reverse] at hc
  exact List.mem_reverse.mp ((List.dropWhile_sublist _).subset hc)

theorem b64url_encode_lt128 (bs : Bytes) (h : ∀ x ∈ bs, x < 256) :
    ∀ c ∈ b64url_encode bs, c < 128 := by
  intro c hc
  rcases b64encodeGroups_chars bs h c (mem_rstripEq hc) with rfl | ⟨v, hv, rfl⟩
  · omega
  · exact b64char_lt_128 v hv

theorem b64url_encode_ne_dot (bs : Bytes) (h : ∀ x ∈ bs, x < 256) :
    ∀ c ∈ b64url_encode bs, c ≠ 46 := by
  intro c hc
  rcases b64encodeGroups_chars bs h c (mem_rstripEq hc) with rfl | ⟨v, hv, rfl⟩
  · omega
  · exact b64char_ne_dot v hv

theorem hexDigit_lt128 : ∀ n < 16, hexDigit n < 128 := by decide

theorem hex4_lt128 (n : Nat) : ∀ c ∈ hex4 n, c < 128 := by
  intro c hc
  simp only [hex4, List.mem_cons, List.not_mem_nil, or_false] at hc
  rcases hc with rfl | rfl | rfl | rfl <;>
    exact hexDigit_lt128 _ (Nat.mod_lt _ (by omega))

theorem escChar_lt128 (c : Nat) : ∀ x ∈ escChar c, x < 128 := by
  intro x hx
  by_cases h1 : c = 34
  · subst h1; simp only [escChar, if_true, List.mem_cons, List.not_mem_nil, or_false] at hx
    rcases hx with rfl | rfl <;> omega
  by_cases h2 : c = 92
  · subst h2; simp [escChar] at hx
    omega
  by_cases h3 : c = 8
  · subst h3; simp [escChar] at hx
    rcases hx with rfl | rfl <;> omega
  by_cases h4 : c = 9
  · subst h4; simp [escChar] at hx
    rcases hx with rfl | rfl <;> omega
  by_cases h5 : c = 10
  · subst h5; simp [escChar] at hx
    rcases hx with rfl | rfl <;> omega
  by_cases h6 : c = 12
  · subst h6; simp [escChar] at hx
    rcases hx with rfl | rfl <;> omega
  by_cases h7 : c = 13
  · subst h7; simp [escChar] at hx
    rcases hx with rfl | rfl <;> omega
  by_cases h8 : c < 32
  · simp only [escChar, if_neg h1, if_neg h2, if_neg h3, if_neg h4, if_neg h5, if_neg h6,
      if_neg h7, if_pos h8, List.mem_cons] at hx
    rcases hx with rfl | rfl | hx
    · omega
    · omega
    · exact hex4_lt128 c x hx
  by_cases h9 : c < 127
  · simp only [escChar, if_neg h1, if_neg h2, if_neg h3, if_neg h4, if_neg h5, if_neg h6,
      if_neg h7, if_neg h8, if_pos h9, List.mem_cons, List.not_mem_nil, or_false] at hx
    omega
  by_cases h10 : c < 65536
  · simp only [escChar, if_neg h1, if_neg h2, if_neg h3, if_neg h4, if_neg h5, if_neg h6,
      if_neg h7, if_neg h8, if_neg h9, if_pos h10, List.mem_cons] at hx
    rcases hx with rfl | rfl | hx
    · omega
    · omega
    · exact hex4_lt128 c x hx
  · simp only [escChar, if_neg h1, if_neg h2, if_neg h3, if_neg h4, if_neg h5, if_neg h6,
      if_neg h7, if_neg h8, if_neg h9, if_neg h10, List.mem_append, List.mem_cons] at hx
    rcases hx with (rfl | rfl | hx) | (rfl | rfl | hx)
    · omega
    · omega
    · exact hex4_lt128 _ x hx
    · omega
    · omega
    · exact hex4_lt128 _ x hx

theorem dumpJStr_lt128 (s : PyStr) : ∀ c ∈ dumpJStr s, c < 128 := by
  intro c hc
  simp only [dumpJStr, List.mem_cons, List.mem_append, List.mem_flatMap,
    List.not_mem_nil, or_false] at hc
  rcases hc with (rfl | ⟨a, _, ha⟩) | rfl
  · omega
  · exact escChar_lt128 a c ha
  · omega

theorem natDec_lt128 (n : Nat) : ∀ c ∈ natDec n, c < 128 := by
  intro c hc
  have := natDecAux_digits (n + 1) n (by omega) c hc
  omega

theorem intDec_lt128 (i : Int) : ∀ c ∈ intDec i, c < 128 := by
  intro c hc
  cases i with
  | ofNat n => exact natDec_lt128 n c hc
  | negSucc m =>
      simp only [intDec, List.mem_cons] at hc
      rcases hc with rfl | hc
      · omega
      · exact natDec_lt128 (m + 1) c hc

theorem mem_joinCommaSpace : ∀ (ls : List (List Nat)) (c : Nat),
    c ∈ joinCommaSpace ls → c = 44 ∨ c = 32 ∨ ∃ x ∈ ls, c ∈ x
  | [], c, hc => by simp [joinCommaSpace] at hc
  | [x], c, hc => by
      simp only [joinCommaSpace] at hc
      exact .inr (.inr ⟨x, by simp, hc⟩)
  | x :: y :: xs, c, hc => by
      simp only [joinCommaSpace, List.mem_append, List.mem_cons] at hc
      rcases hc with hc | rfl | rfl | hc
      · exact .inr (.inr ⟨x, by simp, hc⟩)
      · exact .inl rfl
      · exact .inr (.inl rfl)
      · rcases mem_joinCommaSpace (y :: xs) c hc with h44 | h32 | ⟨z, hz, hcz⟩
        · exact .inl h44
        · exact .inr (.inl h32)
        · exact .inr (.inr ⟨z, by simp at hz ⊢; tauto, hcz⟩)

theorem json_dumps_payload_lt128 (e : Int) (data : List (PyStr × PyStr)) :
    ∀ c ∈ json_dumps_payload e data, c < 128 := by
  have hA : ∀ c ∈ ofStr "\"exp\": ", c < 128 := by decide
  have hB : ∀ c ∈ ofStr ", \"data\": ", c < 128 := by decide
  have hD : ∀ c ∈ dumpDataMembers data, c < 128 := by
    intro c hc
    rcases mem_joinCommaSpace _ c hc with rfl | rfl | ⟨x, hx, hcx⟩
    · omega
    · omega
    · simp only [List.mem_map] at hx
      obtain ⟨kv, _, rfl⟩ := hx
      rcases List.mem_append.mp hcx with hcx | hcx
      · exact dumpJStr_lt128 _ c hcx
      · rcases List.mem_cons.mp hcx with rfl | hcx
        · omega
        · rcases List.mem_cons.mp hcx with rfl | hcx
          · omega
          · exact dumpJStr_lt128 _ c hcx
  intro c hc
  rw [json_dumps_payload] at hc
  rcases List.mem_cons.mp hc with rfl | hc
  · omega
  rcases List.mem_append.mp hc with hc | hc
  case inr => rcases List.mem_singleton.mp hc with rfl; omega
  rcases List.mem_append.mp hc with hc | hc
  case inr =>
    rw [json_dumps_strdict] at hc
    rcases List.mem_cons.mp hc with rfl | hc
    · omega
    rcases List.mem_append.mp hc with hc | hc
    · exact hD c hc
    · rcases List.mem_singleton.mp hc with rfl; omega
  rcases List.mem_append.mp hc with hc | hc
  case inr => exact hB c hc
  rcases List.mem_append.mp hc with hc | hc
  · exact hA c hc
  · exact intDec_lt128 e c hc

theorem json_dumps_header_lt128 : ∀ c ∈ json_dumps_header, c < 128 := by decide

/-! ### Token splitting -/

theorem rfindDot_none : ∀ (l : List Nat), 46 ∉ l → rfindDot l = none
  | [], _ => rfl
  | c :: rest, h => by
      have hc : c ≠ 46 := fun hh => h (hh ▸ List.mem_cons_self c rest)
      have := rfindDot_none rest (fun hh => h (List.mem_cons_of_mem c hh))
      simp [rfindDot, this, hc]

theorem rfindDot_append : ∀ (A B : List Nat), 46 ∉ B →
    rfindDot (A ++ 46 :: B) = some A.length
  | [], B, h => by simp [rfindDot, rfindDot_none B h]
  | c :: A, B, h => by
      simp [rfindDot, rfindDot_append A B h]

theorem splitDots_no : ∀ (l : List Nat), 46 ∉ l → splitDots l = [l]
  | [], _ => rfl
  | c :: rest, h => by
      have hc : c ≠ 46 := fun hh => h (hh ▸ List.mem_cons_self c rest)
      have := splitDots_no rest (fun hh => h (List.mem_cons_of_mem c hh))
      simp [splitDots, this, hc]

theorem splitDots_append : ∀ (A B : List Nat), 46 ∉ A →
    splitDots (A ++ 46 :: B) = A :: splitDots B
  | [], B, _ => by simp [splitDots]
  | c :: A, B, h => by
      have hc : c ≠ 46 := fun hh => h (hh ▸ List.mem_cons_self c A)
      have := splitDots_append A B (fun hh => h (List.mem_cons_of_mem c hh))
      simp [splitDots, this, hc]

theorem validateStrDict_stateDataJV : ∀ (data : List (PyStr × PyStr)),
    validateStrDict (stateDataJV data) = some data
  | [] => rfl
  | kv :: rest => by
      have ih := validateStrDict_stateDataJV rest
      simp only [stateDataJV, List.map_cons] at ih ⊢
      simp [validateStrDict, ih]

/-! ## Context stacks and `get_context_stack_sid` (execution.py lines 133-140) -/

/-- `ContextStackKey = str | int`. -/
inductive ContextStackKey where
  | str (s : PyStr)
  | int (n : Int)
deriving DecidableEq, Repr

/-- `ContextStack = tuple[ContextStackKey, ...]`. -/
abbrev ContextStack := List ContextStackKey

/-- `k.replace(";", ";;")` on a string key (`;` is code point 59). -/
def escapeSemis : PyStr → PyStr
  | [] => []
  | c :: rest => if c = 59 then 59 :: 59 :: escapeSemis rest else c :: escapeSemis rest

/-- The characters one stack key contributes to the hash input: a string key
with `";"` doubled, an int key as `str(k)`. -/
def keyChars : ContextStackKey → PyStr
  | .str s => escapeSemis s
  | .int n => intDec n

/-- The full character stream `get_context_stack_sid` feeds the SHA-256 hasher
(each rendered key followed by `";"`).  The hash itself is kept abstract:
distinct stacks receive distinct sids, up to SHA-256 collisions, exactly when
their streams differ. -/
def get_context_stack_sid_input (stack : ContextStack) : PyStr :=
  stack.flatMap (fun k => keyChars k ++ [59])

/-! ## The `State` of execution.py (lines 17-131) and `Context.navigate` -/

/-- An `OutputEvent`; only the constructor the embedded operations produce
(`NavigateOutputEvent`) is carried. -/
inductive OutputEvent where
  | navigate (location : PyStr)
deriving DecidableEq, Repr

/-- `StrStateCell` (cell.py): a cell holding one string.  `update_state_strs`
only ever creates or assigns cells of this shape, so the embedded cell store
carries exactly these. -/
structure StrStateCell where
  value : PyStr
deriving DecidableEq, Repr

/-- Ordered-dict lookup (Python dict keys are unique, so first match). -/
def alGet {β : Type} (l : List (PyStr × β)) (k : PyStr) : Option β :=
  match l with
  | [] => none
  | (k2, v) :: rest => if k2 = k then some v else alGet rest k

/-- Ordered-dict assignment: update in place, else append (insertion order). -/
def alSet {β : Type} (l : List (PyStr × β)) (k : PyStr) (v : β) : List (PyStr × β) :=
  match l with
  | [] => [(k, v)]
  | (k2, v2) :: rest => if k2 = k then (k2, v) :: rest else (k2, v2) :: alSet rest k v

/-- `set.add`: a Python set as a duplicate-free list. -/
def setAdd {α : Type} [DecidableEq α] (s : List α) (x : α) : List α :=
  if x ∈ s then s else s ++ [x]

namespace execution

/-- The mutable fields of execution.py's `State`. -/
structure State where
  key_str_store : List (PyStr × PyStr)
  key_cell_store : List (PyStr × StrStateCell)
  key_subscribers : List (PyStr × List ContextStack)
  pending_updates : List ContextStack
  output_events : List OutputEvent
  update_event : Bool
deriving Repr

/-- `State.__init__`: all stores empty, the shared `asyncio.Event` unset. -/
def State.initial : State := ⟨[], [], [], [], [], false⟩

/-- `get_key_str` (lines 46-50): the str store first, then a cell's
serialized value. -/
def State.get_key_str (s : State) (key : PyStr) : Option PyStr :=
  match alGet s.key_str_store key with
  | some v => some v
  | none => (alGet s.key_cell_store key).map StrStateCell.value

/-- `_set_update_event` (lines 129-131). -/
def State._set_update_event (s : State) : State :=
  { s with update_event := !s.pending_updates.isEmpty || !s.output_events.isEmpty }

/-- `request_context_updates` (lines 72-74). -/
def State.request_context_updates (s : State) (ids : List ContextStack) : State :=
  State._set_update_event { s with pending_updates := ids.foldl setAdd s.pending_updates }

/-- `request_key_updates` (lines 76-78): the union of the given keys'
subscriber sets, fed to `request_context_updates`. -/
def State.request_key_updates (s : State) (keys : List PyStr) : State :=
  s.request_context_updates (keys.flatMap (fun k => (alGet s.key_subscribers k).getD []))

/-- `update_state_strs` (lines 61-70): each value lands in a `StrStateCell`
(created or assigned), then `request_key_updates` runs on the written keys —
unconditionally, whether or not any stored value changed. -/
def State.update_state_strs (s : State) (data : List (PyStr × PyStr)) : State :=
  let store := data.foldl (fun st kv => alSet st kv.1 ⟨kv.2⟩) s.key_cell_store
  let s2 : State := { s with key_cell_store := store }
  s2.request_key_updates (data.map Prod.fst)

/-- `subscribe` (lines 80-81). -/
def State.subscribe (s : State) (cid : ContextStack) (key : PyStr) : State :=
  { s with key_subscribers :=
      alSet s.key_subscribers key (setAdd ((alGet s.key_subscribers key).getD []) cid) }

/-- `unsubscribe_all` (lines 87-91).  The loop body tests `if id in ids`
where `id` is the Python builtin function — the parameter is named `cid` —
so the membership test is always false and no subscriber set ever loses an
entry: only the pending-update set drops `cid`. -/
def State.unsubscribe_all (s : State) (cid : ContextStack) : State :=
  State._set_update_event { s with pending_updates := s.pending_updates.filter (· ≠ cid) }

/-- `add_output_event` (lines 93-95): a plain list append, no deduplication. -/
def State.add_output_event (s : State) (e : OutputEvent) : State :=
  State._set_update_event { s with output_events := s.output_events ++ [e] }

/-- `pop_output_events` (lines 97-100): drain the whole batch. -/
def State.pop_output_events (s : State) : List OutputEvent × State :=
  (s.output_events, { s with output_events := [] })

/-- `pop_updates` (lines 102-106). -/
def State.pop_updates (s : State) : List ContextStack × State :=
  (s.pending_updates, State._set_update_event { s with pending_updates := [] })

/-- `Context.navigate` (lines 218-220): write `!location` through
`update_state_strs`, then append a `NavigateOutputEvent`. -/
def navigate (s : State) (location : PyStr) : State :=
  (s.update_state_strs [(ofStr "!location", location)]).add_output_event (.navigate location)

end execution

/-! ## newstate.py: `KeyState` and its `State` -/

namespace newstate

/-- `KeyState` (newstate.py lines 17-61).  Consumers and producers are
identified by opaque numerals.  `set` is embedded for a plain string value
(the `StateProducer` branch assigns a producer instead; no claim exercises
it). -/
structure KeyState where
  key : PyStr
  value : Option PyStr
  producer : Option Nat
  consumers : List Nat
deriving DecidableEq, Repr

/-- `KeyState.set` (lines 36-45) on a string value: store it, clear the
producer, then call `consume` on every consumer — `self.producer` is `None`
by then, so the `is not` guard filters nothing.  Returns (the new cell, the
consumers notified, in order); there is no value-unchanged check. -/
def KeyState.set (ks : KeyState) (value : PyStr) : KeyState × List Nat :=
  ({ ks with value := some value, producer := none }, ks.consumers)

/-- The mutable field of newstate.py's `State`. -/
structure State where
  key_states : List (PyStr × KeyState)
deriving Repr

/-- `_get_active_keys` (lines 99-100): a key is active when it is empty, its
first character is not an inactive prefix, or it has at least one consumer. -/
def State._get_active_keys (s : State) (inactive_prefixes : List Nat) : List PyStr :=
  (s.key_states.filter (fun kv =>
    kv.1.length = 0 ∨ kv.1.headD 0 ∉ inactive_prefixes ∨ kv.2.consumers ≠ [])).map Prod.fst

/-- `delete` (lines 79-82): drop the key (the cell's `destroy` side effects
are internal to the removed cell). -/
def State.delete (s : State) (key : PyStr) : State :=
  ⟨s.key_states.filter (fun kv => kv.1 ≠ key)⟩

/-- `cleanup` (lines 88-92): the loop body is `return self.delete(key)`, so
at most the FIRST inactive key is deleted before the function returns. -/
def State.cleanup (s : State) (inactive_prefixes : List Nat) : State :=
  let active := s._get_active_keys inactive_prefixes
  let inactive := (s.key_states.map Prod.fst).filter (fun k => k ∉ active)
  match inactive with
  | [] => s
  | k :: _ => s.delete k

end newstate

/-! ## component.py: task bookkeeping and event dispatch -/

namespace component

/-- What `lc_destroy` does to one background task. -/
inductive TaskFate where
  | awaited
  | cancelledAwaited
deriving DecidableEq, Repr

/-- The task lists of a `Component` (component.py lines 78-83); tasks are
identified by opaque numerals. -/
structure Component where
  worker_tasks : List Nat
  job_tasks : List Nat
deriving DecidableEq, Repr

/-- `Component.add_job` (lines 88-96): in a persistent session the created
task is appended to `self._worker_tasks`; otherwise the coroutine is closed
unrun (`false`). -/
def Component.add_job (c : Component) (persistent : Bool) (t : Nat) : Component × Bool :=
  if persistent then ({ c with worker_tasks := c.worker_tasks ++ [t] }, true)
  else (c, false)

/-- `Component.add_worker` (lines 97-105): identical to `add_job`. -/
def Component.add_worker (c : Component) (persistent : Bool) (t : Nat) : Component × Bool :=
  if persistent then ({ c with worker_tasks := c.worker_tasks ++ [t] }, true)
  else (c, false)

/-- `Component.lc_destroy` (lines 116-127): `_job_tasks` are awaited without
cancellation, `_worker_tasks` are cancelled and then awaited, all before
`on_after_destroy` runs.  The list records each task's fate in order. -/
def Component.lc_destroy (c : Component) : List (Nat × TaskFate) :=
  c.job_tasks.map (fun t => (t, TaskFate.awaited))
    ++ c.worker_tasks.map (fun t => (t, TaskFate.cancelledAwaited))

/-- A Python attribute value as `getattr` sees it: an `InstanceEventHandler`
or any ordinary method or attribute. -/
inductive AttrVal where
  | handler (h : Nat)
  | other
deriving DecidableEq, Repr

/-- An event payload value (`int | float | str | bool`). -/
inductive EventVal where
  | str (s : PyStr)
  | num (n : Int)
  | bool (b : Bool)
deriving DecidableEq, Repr

/-- `Component.lc_handle_event` (lines 129-134) on the popped
`$handler_name` entry: the id of the handler invoked, or `none` when the
event is silently dropped.  A total function — no branch raises: `getattr`
carries a `None` default and only `InstanceEventHandler` attributes are
called. -/
def lc_handle_event (attrs : List (PyStr × AttrVal))
    (handler_name : Option EventVal) : Option Nat :=
  match handler_name with
  | some (.str name) =>
      match alGet attrs name with
      | some (.handler h) => some h
      | _ => none
  | _ => none

end component

/-! ## session.py: `Session._find_roots` and the update pass -/

namespace session

mutual
/-- A rendered node: its context id and children.  The child list is its own
inductive so that every recursion below stays structural (and so kernel
reducible). -/
inductive NodeT where
  | mk (id : ContextStack) (children : NodeForest)
inductive NodeForest where
  | nil
  | cons (head : NodeT) (tail : NodeForest)
end

def NodeT.id : NodeT → ContextStack
  | .mk i _ => i

def NodeForest.toList : NodeForest → List NodeT
  | .nil => []
  | .cons n rest => n :: rest.toList

def NodeT.children : NodeT → List NodeT
  | .mk _ cs => cs.toList

mutual
def NodeT.size : NodeT → Nat
  | .mk _ cs => 1 + NodeForest.size cs
def NodeForest.size : NodeForest → Nat
  | .nil => 0
  | .cons n rest => NodeT.size n + NodeForest.size rest
end

mutual
/-- Every context id in the (sub)tree, preorder. -/
def NodeT.allIds : NodeT → List ContextStack
  | .mk i cs => i :: NodeForest.allIds cs
def NodeForest.allIds : NodeForest → List ContextStack
  | .nil => []
  | .cons n rest => NodeT.allIds n ++ NodeForest.allIds rest
end

/-- The breadth-first loop of `_find_roots` (session.py lines 134-140): each
level's children are scanned; a child whose id is in `ids` is yielded and its
subtree is not descended into, the others form the next level.  `fuel` only
bounds the depth (`find_roots` supplies the tree size). -/
def findRootsLevels : Nat → List NodeT → List ContextStack → List NodeT
  | 0, _, _ => []
  | _, [], _ => []
  | fuel + 1, els, ids =>
      let all := els.flatMap NodeT.children
      all.filter (fun n => n.id ∈ ids)
        ++ findRootsLevels fuel (all.filter (fun n => n.id ∉ ids)) ids

/-- `Session._find_roots` (lines 130-140): the root itself short-circuits,
otherwise the breadth-first scan starts from the root's children. -/
def find_roots (root : NodeT) (ids : List ContextStack) : List NodeT :=
  if root.id ∈ ids then [root]
  else findRootsLevels (NodeT.size root) [root] ids

/-- The render schedule of `Session.update` (lines 74-80): one `node.update`
per root `_find_roots` yields from the popped pending-update set, in order.
(The trailing `state.cleanup` and event reset touch neither the schedule nor
the pending set.) -/
def update_renders (root : NodeT) (s : execution.State) :
    List ContextStack × execution.State :=
  let p := s.pop_updates
  ((find_roots root p.1).map NodeT.id, p.2)

end session

/-! ## Support lemmas for the update-coalescing analysis -/

theorem count_le_one_of_nodup {α : Type} [BEq α] [LawfulBEq α] {l : List α}
    (h : l.Nodup) (a : α) : l.count a ≤ 1 := by
  induction l with
  | nil => simp
  | cons b t ih =>
      rcases List.nodup_cons.mp h with ⟨hb, ht⟩
      rw [List.count_cons]
      by_cases hab : a = b
      · subst hab
        have hz : t.count a = 0 := List.count_eq_zero.mpr hb
        simp [hz]
      · have hba : (b == a) = false := by
          simp only [beq_eq_false_iff_ne]
          exact Ne.symm hab
        simp [hba]
        exact ih ht

theorem nodup_of_count_le_one {α : Type} [BEq α] [LawfulBEq α] {l : List α}
    (h : ∀ a, l.count a ≤ 1) : l.Nodup := by
  induction l with
  | nil => simp
  | cons b t ih =>
      rw [List.nodup_cons]
      constructor
      · intro hbmem
        have h1 := h b
        rw [List.count_cons] at h1
        simp at h1
        have h2 : t.count b = 0 := by omega
        exact (List.count_eq_zero.mp h2) hbmem
      · apply ih
        intro a
        have := h a
        rw [List.count_cons] at this
        omega

theorem setAdd_nodup {α : Type} [DecidableEq α] {s : List α} (h : s.Nodup) (x : α) :
    (setAdd s x).Nodup := by
  by_cases hx : x ∈ s
  · simpa [setAdd, hx]
  · have h2 : (s ++ [x]).Nodup := by simp [List.nodup_append, h, hx]
    simpa [setAdd, hx]

theorem foldl_setAdd_nodup {α : Type} [DecidableEq α] :
    ∀ (l : List α) (p : List α), p.Nodup → (l.foldl setAdd p).Nodup
  | [], _, h => h
  | x :: rest, p, h => foldl_setAdd_nodup rest _ (setAdd_nodup h x)

theorem update_state_strs_pending_nodup (s : execution.State) (data : List (PyStr × PyStr))
    (h : s.pending_updates.Nodup) :
    (s.update_state_strs data).pending_updates.Nodup := by
  simp only [execution.State.update_state_strs, execution.State.request_key_updates,
    execution.State.request_context_updates, execution.State._set_update_event]
  exact foldl_setAdd_nodup _ _ h

/-- One `update_state_strs` call per write, in order: a batch of state-key
writes performed within one update cycle. -/
def applyWrites (s : execution.State) (writes : List (PyStr × PyStr)) : execution.State :=
  writes.foldl (fun st kv => st.update_state_strs [kv]) s

theorem applyWrites_pending_nodup :
    ∀ (writes : List (PyStr × PyStr)) (s : execution.State), s.pending_updates.Nodup →
      (applyWrites s writes).pending_updates.Nodup
  | [], _, h => h
  | kv :: rest, s, h =>
      applyWrites_pending_nodup rest _ (update_state_strs_pending_nodup s [kv] h)

namespace session

theorem forest_allIds_toList : ∀ (cs : NodeForest),
    cs.toList.flatMap NodeT.allIds = NodeForest.allIds cs
  | .nil => rfl
  | .cons n rest => by
      simp [NodeForest.toList, NodeForest.allIds, forest_allIds_toList rest]

theorem count_id_children : ∀ (els : List NodeT) (cid : ContextStack),
    (els.map NodeT.id).count cid
      + ((els.flatMap NodeT.children).flatMap NodeT.allIds).count cid
      = (els.flatMap NodeT.allIds).count cid
  | [], _ => by simp
  | NodeT.mk i cs :: rest, cid => by
      have ih := count_id_children rest cid
      simp only [List.map_cons, List.flatMap_cons, List.flatMap_append, List.count_append,
        NodeT.children, NodeT.id, NodeT.allIds, forest_allIds_toList, List.count_cons]
      omega

theorem count_flatMap_filter : ∀ (l : List NodeT) (p : NodeT → Bool) (cid : ContextStack),
    ((l.filter p).flatMap NodeT.allIds).count cid
      + ((l.filter (fun n => !p n)).flatMap NodeT.allIds).count cid
      = (l.flatMap NodeT.allIds).count cid
  | [], _, _ => by simp
  | n :: rest, p, cid => by
      have ih := count_flatMap_filter rest p cid
      by_cases hp : p n = true
      · rw [List.filter_cons_of_pos (by simp [hp]), List.filter_cons_of_neg (by simp [hp])]
        simp only [List.flatMap_cons, List.count_append]
        omega
      · have hp2 : p n = false := by simpa using hp
        rw [List.filter_cons_of_neg (by simp [hp2]), List.filter_cons_of_pos (by simp [hp2])]
        simp only [List.flatMap_cons, List.count_append]
        omega

theorem count_map_id_le : ∀ (l : List NodeT) (cid : ContextStack),
    (l.map NodeT.id).count cid ≤ (l.flatMap NodeT.allIds).count cid
  | [], _ => by simp
  | NodeT.mk i cs :: rest, cid => by
      have ih := count_map_id_le rest cid
      simp only [List.map_cons, List.flatMap_cons, NodeT.allIds, NodeT.id,
        List.count_cons, List.count_append]
      omega

theorem findRootsLevels_count : ∀ (fuel : Nat) (els : List NodeT) (ids : List ContextStack)
    (cid : ContextStack),
    ((findRootsLevels fuel els ids).map NodeT.id).count cid
      ≤ (els.flatMap NodeT.allIds).count cid
  | 0, els, ids, cid => by simp [findRootsLevels]
  | fuel + 1, [], ids, cid => by simp [findRootsLevels]
  | fuel + 1, e :: rest, ids, cid => by
      have hfilter : (fun n : NodeT => decide (n.id ∉ ids))
          = fun n : NodeT => !decide (n.id ∈ ids) := by
        funext n
        simp [decide_not]
      simp only [findRootsLevels, List.map_append, List.count_append]
      rw [hfilter]
      have h3 := count_map_id_le (((e :: rest).flatMap NodeT.children).filter
        (fun n => decide (n.id ∈ ids))) cid
      have hIH := findRootsLevels_count fuel (((e :: rest).flatMap NodeT.children).filter
        (fun n => !decide (n.id ∈ ids))) ids cid
      have h2 := count_flatMap_filter ((e :: rest).flatMap NodeT.children)
        (fun n => decide (n.id ∈ ids)) cid
      have h1 := count_id_children (e :: rest) cid
      omega

/-- Each node the breadth-first scan yields is a distinct tree position, so
with globally distinct context ids every context appears at most once in the
render schedule. -/
theorem find_roots_renders_nodup (root : NodeT) (ids : List ContextStack)
    (hnd : (NodeT.allIds root).Nodup) :
    ((find_roots root ids).map NodeT.id).Nodup := by
  apply nodup_of_count_le_one
  intro a
  unfold find_roots
  split
  · simp only [List.map_cons, List.map_nil, List.count_cons, List.count_nil]
    split <;> omega
  · have h := findRootsLevels_count (NodeT.size root) [root] ids a
    have h2 : ([root].flatMap NodeT.allIds).count a = (NodeT.allIds root).count a := by simp
    have h3 := count_le_one_of_nodup hnd a
    omega

end session

/-! ## Support lemmas for the sid-hash-input analysis -/

theorem escapeSemis_no_semi : ∀ (s : PyStr), 59 ∉ s → escapeSemis s = s
  | [], _ => rfl
  | c :: rest, h => by
      have hc : c ≠ 59 := fun hh => h (hh ▸ List.mem_cons_self c rest)
      have := escapeSemis_no_semi rest (fun hh => h (List.mem_cons_of_mem c hh))
      simp [escapeSemis, hc, this]

theorem semi_append_inj : ∀ (k1 k2 rest1 rest2 : PyStr), 59 ∉ k1 → 59 ∉ k2 →
    k1 ++ 59 :: rest1 = k2 ++ 59 :: rest2 → k1 = k2 ∧ rest1 = rest2
  | [], [], rest1, rest2, _, _, heq => by simpa using heq
  | [], c :: k2, rest1, rest2, _, h2, heq => by
      simp only [List.nil_append, List.cons_append, List.cons.injEq] at heq
      exact absurd (heq.1 ▸ List.mem_cons_self c k2) h2
  | c :: k1, [], rest1, rest2, h1, _, heq => by
      simp only [List.nil_append, List.cons_append, List.cons.injEq] at heq
      exact absurd (heq.1.symm ▸ List.mem_cons_self c k1) h1
  | c1 :: k1, c2 :: k2, rest1, rest2, h1, h2, heq => by
      simp only [List.cons_append, List.cons.injEq] at heq
      have ih := semi_append_inj k1 k2 rest1 rest2
        (fun hh => h1 (List.mem_cons_of_mem c1 hh))
        (fun hh => h2 (List.mem_cons_of_mem c2 hh)) heq.2
      exact ⟨by rw [heq.1, ih.1], ih.2⟩

/-! ## Event dispatch helper -/

/-- Whether a `getattr` result is an `InstanceEventHandler`. -/
def isHandlerAttr : Option component.AttrVal → Bool
  | some (.handler _) => true
  | _ => false

/-- A token whose first segment is the valid base64url header but whose
signature segment `"A"` (one base64 character) is not decodable:
`binascii.a2b_base64` rejects a final group of one data character. -/
def badToken : PyStr := b64url_encode json_dumps_header ++ 46 :: 120 :: 46 :: [65]

/-! ## The claims -/

/-- C1: resolving a token freshly created from a durable-state map `S` (under
the default `HS512` setup, with the digest kept abstract and returning bytes)
yields exactly `S`, provided the token has not yet expired
(`nowR ≤ nowC + maxAge`), the keys are distinct as in a Python dict, and the
strings contain no lone surrogates (so `json.dumps`/UTF-8 round-trips them). -/
theorem jwt_create_resolve_roundtrip
    (hmacD : Bytes → Bytes → Bytes) (secret : Bytes)
    (nowC maxAge nowR : Int) (S : List (PyStr × PyStr))
    (hnd : (S.map Prod.fst).Nodup)
    (hsc : ∀ kv ∈ S, ScalarStr kv.1 ∧ ScalarStr kv.2)
    (hsig : ∀ b ∈ hmacD secret
      (b64url_encode json_dumps_header ++ 46 ::
        b64url_encode (json_dumps_payload (nowC + maxAge) S)), b < 256)
    (hexp : nowR ≤ nowC + maxAge) :
    resolve hmacD secret nowR (create_token hmacD secret nowC maxAge S) = .ok S := by
  clear hnd
  have hHb : ∀ x ∈ json_dumps_header, x < 256 := by
    intro x hx; have := json_dumps_header_lt128 x hx; omega
  have hPb : ∀ x ∈ json_dumps_payload (nowC + maxAge) S, x < 256 := by
    intro x hx; have := json_dumps_payload_lt128 (nowC + maxAge) S x hx; omega
  set H := b64url_encode json_dumps_header with hHdef
  set P := b64url_encode (json_dumps_payload (nowC + maxAge) S) with hPdef
  set sigBytes := hmacD secret (H ++ 46 :: P) with hsigdef
  set G := b64url_encode sigBytes with hGdef
  have hH128 : ∀ c ∈ H, c < 128 := b64url_encode_lt128 _ hHb
  have hP128 : ∀ c ∈ P, c < 128 := b64url_encode_lt128 _ hPb
  have hG128 : ∀ c ∈ G, c < 128 := b64url_encode_lt128 _ hsig
  have hHdot : 46 ∉ H := fun hin => b64url_encode_ne_dot _ hHb 46 hin rfl
  have hPdot : 46 ∉ P := fun hin => b64url_encode_ne_dot _ hPb 46 hin rfl
  have hGdot : 46 ∉ G := fun hin => b64url_encode_ne_dot _ hsig 46 hin rfl
  have htok : create_token hmacD secret nowC maxAge S = (H ++ 46 :: P) ++ 46 :: G := rfl
  have henc : utf8Encode ((H ++ 46 :: P) ++ 46 :: G) = .ok ((H ++ 46 :: P) ++ 46 :: G) := by
    apply utf8Encode_ascii
    intro c hc
    simp only [List.mem_append, List.mem_cons] at hc
    rcases hc with (hc | rfl | hc) | rfl | hc
    · exact hH128 c hc
    · omega
    · exact hP128 c hc
    · omega
    · exact hG128 c hc
  have hfind : rfindDot ((H ++ 46 :: P) ++ 46 :: G) = some (H ++ 46 :: P).length :=
    rfindDot_append _ _ hGdot
  have hsplit : splitDots ((H ++ 46 :: P) ++ 46 :: G) = [H, P, G] := by
    have h1 : (H ++ 46 :: P) ++ 46 :: G = H ++ 46 :: (P ++ 46 :: G) := by simp
    rw [h1, splitDots_append H _ hHdot, splitDots_append P G hPdot, splitDots_no G hGdot]
  have hdecH : b64url_decode H = .ok json_dumps_header := b64url_decode_encode _ hHb
  have hdecP : b64url_decode P = .ok (json_dumps_payload (nowC + maxAge) S) :=
    b64url_decode_encode _ hPb
  have hdecG : b64url_decode G = .ok sigBytes := b64url_decode_encode _ hsig
  have hudH : utf8Decode json_dumps_header = .ok json_dumps_header :=
    utf8Decode_ascii _ json_dumps_header_lt128
  have hudP : utf8Decode (json_dumps_payload (nowC + maxAge) S)
      = .ok (json_dumps_payload (nowC + maxAge) S) :=
    utf8Decode_ascii _ (json_dumps_payload_lt128 _ S)
  have hloadH : jsonLoads json_dumps_header
      = some (.obj [([116, 121, 112], .str [74, 87, 84]),
                    ([97, 108, 103], .str [72, 83, 53, 49, 50])]) := by rfl
  have hhok : headerOk (.obj [([116, 121, 112], JValue.str [74, 87, 84]),
      ([97, 108, 103], JValue.str [72, 83, 53, 49, 50])]) = true := by rfl
  have hloadP := jsonLoads_payload (nowC + maxAge) S hsc
  have hlook1 : pyIntOf ((lookupLast [(ofStr "exp", JValue.num (nowC + maxAge)),
      (ofStr "data", JValue.obj (stateDataJV S))] (ofStr "exp")).getD .null)
      = some (nowC + maxAge) := rfl
  have hlook2 : (lookupLast [(ofStr "exp", JValue.num (nowC + maxAge)),
      (ofStr "data", JValue.obj (stateDataJV S))] (ofStr "data")).getD .null
      = JValue.obj (stateDataJV S) := rfl
  have hvalid := validateStrDict_stateDataJV S
  rw [htok]
  simp only [resolve, henc, hfind, hsplit]
  simp [hdecH, hudH, hloadH, hhok, hdecP, hudP, hloadP,
    payloadJV, hlook1, hlook2, hvalid, if_neg (by omega : ¬ (nowC + maxAge < nowR))]
  have hdrop2 : List.drop (H.length + (P.length + 1) + 1) (H ++ 46 :: (P ++ 46 :: G)) = G := by
    have h1 : H ++ 46 :: (P ++ 46 :: G) = ((H ++ [46] ++ P) ++ [46]) ++ G := by simp
    have h2 : H.length + (P.length + 1) + 1 = ((H ++ [46] ++ P) ++ [46]).length := by
      simp
      try omega
    rw [h1, h2, List.drop_left]
  have htake2 : List.take (H.length + (P.length + 1)) (H ++ 46 :: (P ++ 46 :: G))
      = H ++ 46 :: P := by
    have h1 : H ++ 46 :: (P ++ 46 :: G) = (H ++ [46] ++ P) ++ 46 :: G := by simp
    have h2 : H.length + (P.length + 1) = (H ++ [46] ++ P).length := by
      simp
      try omega
    rw [h1, h2, List.take_left]
    simp
  simp only [hdrop2, hdecG, htake2, ← hsigdef]
  simp

/-- C1 witness: the round trip at a concrete digest, secret, clock and
one-entry state map. -/
theorem jwt_create_resolve_roundtrip_witness :
    (5 : Int) ≤ 0 + 10
    ∧ resolve (fun _ _ => [0]) [] 5
        (create_token (fun _ _ => [0]) [] 0 10 [(ofStr "a", ofStr "b")])
      = .ok [(ofStr "a", ofStr "b")] :=
  ⟨by decide, jwt_create_resolve_roundtrip (fun _ _ => [0]) [] 0 10 5
    [(ofStr "a", ofStr "b")] (by decide) (by decide) (by decide) (by decide)⟩

/-- C2: the claim fails — a token whose header segment is well-formed but
whose signature segment is not base64-decodable makes `resolve` raise
`binascii.Error` (the decode at state.py line 127 sits outside any `try`),
and `App._get_state_from_token` catches only `StateResolverError`, so the
exception propagates uncaught instead of resolving to the empty map. -/
theorem resolve_binascii_escapes (hmacD : Bytes → Bytes → Bytes) (secret : Bytes)
    (now : Int) :
    resolve hmacD secret now badToken = .error (.uncaught .binasciiError)
    ∧ get_state_from_token hmacD secret now badToken = .error .binasciiError :=
  ⟨rfl, rfl⟩

/-- C3: writes within one update cycle coalesce — the pending-update set
holds each affected context at most once however many writes touched its
keys, and the update pass renders each context at most once (one
`node.update` per yielded root, with no context repeated), given globally
distinct context ids in the tree. -/
theorem state_writes_single_render (s : execution.State) (writes : List (PyStr × PyStr))
    (root : session.NodeT) (hp : s.pending_updates.Nodup)
    (hnd : (session.NodeT.allIds root).Nodup) :
    (applyWrites s writes).pending_updates.Nodup
    ∧ ((session.update_renders root (applyWrites s writes)).1).Nodup := by
  refine ⟨applyWrites_pending_nodup writes s hp, ?_⟩
  simp only [session.update_renders, execution.State.pop_updates]
  exact session.find_roots_renders_nodup root _ hnd

/-- C3 witness: the schedule at a concrete state, write batch and tree. -/
theorem state_writes_single_render_witness :
    (session.NodeT.allIds (session.NodeT.mk [] session.NodeForest.nil)).Nodup
    ∧ ((applyWrites execution.State.initial [(ofStr "k", ofStr "v")]).pending_updates.Nodup
      ∧ ((session.update_renders (session.NodeT.mk [] session.NodeForest.nil)
          (applyWrites execution.State.initial [(ofStr "k", ofStr "v")])).1).Nodup) :=
  ⟨by decide, state_writes_single_render execution.State.initial [(ofStr "k", ofStr "v")]
    (session.NodeT.mk [] session.NodeForest.nil) (by decide) (by decide)⟩

/-- C4 counterexample: writing the value a key already stores is NOT a
no-op — `KeyState.set` has no value-unchanged check, so the consumer is
notified anyway; likewise `update_state_strs` adds the subscriber to the
pending set and raises the update event although the stored cell value is
unchanged. -/
theorem keystate_set_unchanged_notifies :
    (newstate.KeyState.set ⟨ofStr "k", some (ofStr "v"), none, [0]⟩ (ofStr "v")).2 = [0]
    ∧ ((⟨[], [(ofStr "k", ⟨ofStr "v"⟩)],
          [(ofStr "k", [[ContextStackKey.str (ofStr "c")]])], [], [],
          false⟩ : execution.State).update_state_strs
        [(ofStr "k", ofStr "v")]).pending_updates = [[ContextStackKey.str (ofStr "c")]]
    ∧ ((⟨[], [(ofStr "k", ⟨ofStr "v"⟩)],
          [(ofStr "k", [[ContextStackKey.str (ofStr "c")]])], [], [],
          false⟩ : execution.State).update_state_strs
        [(ofStr "k", ofStr "v")]).update_event = true :=
  ⟨rfl, by decide, by decide⟩

/-- C4 (amended): every `KeyState.set` of a string value stores the value and
notifies exactly the current consumer set, whether or not the value changed. -/
theorem keystate_set_always_notifies (ks : newstate.KeyState) (v : PyStr) :
    (ks.set v).1.value = some v ∧ (ks.set v).2 = ks.consumers :=
  ⟨rfl, rfl⟩

/-- C5: the claim fails — after `unsubscribe_all` (as `ComponentNode.destroy`
calls it) the context id has left the pending-update set but is still in the
key's subscriber set: the removal loop tests membership of the Python builtin
`id`, not the parameter `cid`, so it removes nothing. -/
theorem unsubscribe_all_leaves_subscribers :
    ([ContextStackKey.str (ofStr "c")] : ContextStack)
        ∉ (((execution.State.initial.subscribe [ContextStackKey.str (ofStr "c")]
            (ofStr "x")).request_context_updates
            [[ContextStackKey.str (ofStr "c")]]).unsubscribe_all
            [ContextStackKey.str (ofStr "c")]).pending_updates
    ∧ ([ContextStackKey.str (ofStr "c")] : ContextStack)
        ∈ (alGet (((execution.State.initial.subscribe [ContextStackKey.str (ofStr "c")]
            (ofStr "x")).request_context_updates
            [[ContextStackKey.str (ofStr "c")]]).unsubscribe_all
            [ContextStackKey.str (ofStr "c")]).key_subscribers (ofStr "x")).getD [] :=
  ⟨by decide, by decide⟩

/-- C6: the claim fails — `add_job` appends the created task to
`self._worker_tasks` (not `_job_tasks`), so at destruction the job is
cancelled like a worker instead of running to completion; in a non-persistent
session the coroutine is indeed discarded unrun. -/
theorem add_job_cancelled_on_destroy :
    ((component.Component.add_job ⟨[], []⟩ true 0).1.job_tasks = []
    ∧ (component.Component.add_job ⟨[], []⟩ true 0).1.worker_tasks = [0])
    ∧ component.Component.lc_destroy (component.Component.add_job ⟨[], []⟩ true 0).1
        = [(0, component.TaskFate.cancelledAwaited)]
    ∧ (component.Component.add_job ⟨[], []⟩ false 1).2 = false :=
  ⟨⟨rfl, rfl⟩, rfl, rfl⟩

/-- C7: the claim fails — `cleanup` returns from inside its loop, so only the
first inactive `#`-key is deleted: with zero-consumer keys `#a` and `#b` and
durable key `x`, one cleanup leaves `#b` (and `x`) in the store. -/
theorem cleanup_deletes_only_first_inactive :
    ((newstate.State.cleanup
        ⟨[(ofStr "#a", ⟨ofStr "#a", some (ofStr "1"), none, []⟩),
          (ofStr "#b", ⟨ofStr "#b", some (ofStr "2"), none, []⟩),
          (ofStr "x", ⟨ofStr "x", some (ofStr "3"), none, []⟩)]⟩
        [35]).key_states.map Prod.fst) = [ofStr "#b", ofStr "x"] := by
  decide

/-- C8: the claim fails — three `navigate` calls (`/a`, `/b`, `/a`) enqueue
three `NavigateOutputEvent`s, not two: `add_output_event` is a plain append
with no deduplication, while the stored `!location` does end as `/a`. -/
theorem navigate_events_not_deduplicated :
    (execution.navigate (execution.navigate (execution.navigate execution.State.initial
        (ofStr "/a")) (ofStr "/b")) (ofStr "/a")).pop_output_events.1
      = [OutputEvent.navigate (ofStr "/a"), OutputEvent.navigate (ofStr "/b"),
         OutputEvent.navigate (ofStr "/a")]
    ∧ (execution.navigate (execution.navigate (execution.navigate execution.State.initial
        (ofStr "/a")) (ofStr "/b")) (ofStr "/a")).get_key_str (ofStr "!location")
      = some (ofStr "/a")
    ∧ [OutputEvent.navigate (ofStr "/a"), OutputEvent.navigate (ofStr "/b"),
         OutputEvent.navigate (ofStr "/a")]
      ≠ [OutputEvent.navigate (ofStr "/a"), OutputEvent.navigate (ofStr "/b")] :=
  ⟨by decide, by decide, by decide⟩

/-- C9: dispatching an event whose handler name does not name an
`InstanceEventHandler` attribute invokes nothing and raises nothing — the
event is silently dropped, as is any event whose popped `$handler_name` is
not a string. -/
theorem unknown_handler_silent_noop (attrs : List (PyStr × component.AttrVal))
    (name : PyStr) (h : isHandlerAttr (alGet attrs name) = false) :
    component.lc_handle_event attrs (some (.str name)) = none
    ∧ ∀ v : Option component.EventVal, (∀ s, v ≠ some (.str s)) →
        component.lc_handle_event attrs v = none := by
  constructor
  · cases halget : alGet attrs name with
    | none => simp [component.lc_handle_event, halget]
    | some a =>
        cases a with
        | handler hh => rw [halget] at h; exact absurd h (by simp [isHandlerAttr])
        | other => simp [component.lc_handle_event, halget]
  · intro v hv
    cases v with
    | none => rfl
    | some ev =>
        cases ev with
        | str s => exact absurd rfl (hv s)
        | num n => rfl
        | bool b => rfl

/-- C9 witness: one component whose only attribute is an ordinary method,
dispatched with an unknown name. -/
theorem unknown_handler_silent_noop_witness :
    isHandlerAttr (alGet [(ofStr "foo", component.AttrVal.other)] (ofStr "bar")) = false
    ∧ (component.lc_handle_event [(ofStr "foo", component.AttrVal.other)]
        (some (.str (ofStr "bar"))) = none
      ∧ ∀ v : Option component.EventVal, (∀ s, v ≠ some (.str s)) →
          component.lc_handle_event [(ofStr "foo", component.AttrVal.other)] v = none) :=
  ⟨by decide, unknown_handler_silent_noop [(ofStr "foo", component.AttrVal.other)]
    (ofStr "bar") (by decide)⟩

/-- C10 counterexample: the encoding is NOT injective across key types — the
stacks `(5,)` (int key) and `("5",)` (string key) feed the hasher identical
byte streams, so they receive the same sid. -/
theorem sid_hash_input_collision :
    get_context_stack_sid_input [ContextStackKey.int 5]
      = get_context_stack_sid_input [ContextStackKey.str (ofStr "5")]
    ∧ ([ContextStackKey.int 5] : ContextStack) ≠ [ContextStackKey.str (ofStr "5")] :=
  ⟨rfl, by decide⟩

/-- C10 (amended): restricted to stacks of string keys containing no `";"`,
the hash-input encoding is injective, so such distinct stacks receive
distinct sids up to SHA-256 collisions. -/
theorem sid_input_injective_semifree : ∀ (s1 s2 : List PyStr),
    (∀ k ∈ s1, 59 ∉ k) → (∀ k ∈ s2, 59 ∉ k) →
    get_context_stack_sid_input (s1.map ContextStackKey.str)
      = get_context_stack_sid_input (s2.map ContextStackKey.str) → s1 = s2
  | [], [], _, _, _ => rfl
  | [], k :: s2, _, _, heq => by
      simp [get_context_stack_sid_input, keyChars] at heq
  | k :: s1, [], _, _, heq => by
      simp [get_context_stack_sid_input, keyChars] at heq
  | k1 :: s1, k2 :: s2, h1, h2, heq => by
      have hk1 : 59 ∉ k1 := h1 k1 (by simp)
      have hk2 : 59 ∉ k2 := h2 k2 (by simp)
      simp only [get_context_stack_sid_input, List.map_cons, List.flatMap_cons, keyChars,
        escapeSemis_no_semi k1 hk1, escapeSemis_no_semi k2 hk2, List.append_assoc,
        List.singleton_append] at heq
      have hsp := semi_append_inj k1 k2 _ _ hk1 hk2 heq
      have ih := sid_input_injective_semifree s1 s2 (fun k hk => h1 k (by simp [hk]))
        (fun k hk => h2 k (by simp [hk])) (by
          simpa [get_context_stack_sid_input] using hsp.2)
      rw [hsp.1, ih]

/-- C10 witness: the amended injectivity applied at a concrete semicolon-free
string stack. -/
theorem sid_input_injective_semifree_witness :
    (∀ k ∈ [ofStr "a"], 59 ∉ k) ∧ ([ofStr "a"] = [ofStr "a"]) :=
  ⟨by decide, sid_input_injective_semifree [ofStr "a"] [ofStr "a"]
    (by decide) (by decide) rfl⟩

end Rxxxt
